import Mathlib

/-!
# Verification of the deb822 control-file library

Shallow embedding of the deb822 Go library (stanza reader, dpkg version
comparator, architecture model, dependency grammar) together with proofs
about the embedded operations.

Go byte strings are modelled as `List Char` (one `Char` per byte; all inputs
relevant here are ASCII).  Go functions returning `(T, error)` are modelled
with `Except String T`; parser loops driven by a `bufio.Reader` are modelled
as fuelled recursions over the remaining input, where the top-level entry
point supplies fuel that is large enough for the loops (every loop iteration
consumes input or immediately returns, so linear fuel suffices); running out
of fuel is a distinguished outcome, never confused with a parse error.
-/

namespace Deb822

/-- `unicode.IsSpace` restricted to the ASCII range (all inputs considered
here are ASCII): space, tab, newline, vertical tab, form feed, carriage
return. -/
def goIsSpace (c : Char) : Bool :=
  c == ' ' || c == '\t' || c == '\n' || c == Char.ofNat 11 || c == Char.ofNat 12 || c == '\r'

/-- `strings.TrimLeftFunc(s, unicode.IsSpace)`. -/
def trimLeft (l : List Char) : List Char := l.dropWhile goIsSpace

/-- `strings.TrimRightFunc(s, unicode.IsSpace)`. -/
def trimRight (l : List Char) : List Char := (l.reverse.dropWhile goIsSpace).reverse

/-- `strings.TrimSpace`. -/
def trimSpace (l : List Char) : List Char := trimRight (trimLeft l)

/-- Index of the first occurrence of `c`, as `strings.Index` (None for -1). -/
def firstIdx (l : List Char) (c : Char) : Option Nat := l.findIdx? (fun d => d = c)

/-- Index of the last occurrence of `c`, as `strings.LastIndex` (None for -1). -/
def lastIdx (l : List Char) (c : Char) : Option Nat :=
  match (l.reverse.findIdx? (fun d => d = c)) with
  | none => none
  | some k => some (l.length - 1 - k)

/-- `strconv.ParseInt(s, 10, 64)`: an optional sign followed by decimal
digits, within the int64 range.  `none` models a parse error. -/
def parseInt64 (l : List Char) : Option Int :=
  let (neg, digs) :=
    match l with
    | '+' :: rest => (false, rest)
    | '-' :: rest => (true, rest)
    | rest => (false, rest)
  if digs = [] then none
  else if ¬ digs.all (fun c => '0' ≤ c ∧ c ≤ '9') then none
  else
    let v : Nat := digs.foldl (fun n c => 10 * n + (c.toNat - 48)) 0
    let i : Int := if neg then -(v : Int) else (v : Int)
    if i < -(2 ^ 63) ∨ (2 ^ 63 - 1) < i then none else some i

namespace version

/-- `version.Version`: a parsed dpkg version (`Epoch`, `Version`, `Revision`).
The string fields are byte strings, modelled as `List Char`. -/
structure Version where
  Epoch : Nat
  Ver : List Char
  Revision : List Char
deriving DecidableEq, Repr

/-- `cisdigit` from version.go. -/
def cisdigit (r : Char) : Bool := '0' ≤ r && r ≤ '9'

/-- `cisalpha` from version.go. -/
def cisalpha (r : Char) : Bool := ('a' ≤ r && r ≤ 'z') || ('A' ≤ r && r ≤ 'Z')

/-- `order` from version.go: the sort weight of a character inside a
non-digit run (`~` below everything, digits and end-of-string at 0, letters
at their code, all other characters above the letters). -/
def order (r : Char) : Int :=
  if cisdigit r then 0
  else if cisalpha r then (r.toNat : Int)
  else if r = '~' then -1
  else if (r.toNat : Int) ≠ 0 then (r.toNat : Int) + 256
  else 0

/-- The first inner loop of `verrevcmp` in the case where string `a` is
already exhausted: the loop keeps running while `b`'s head is a non-digit,
comparing `order` values against 0. -/
def ndLoopR : List Char → Int ⊕ (List Char × List Char)
  | [] => Sum.inr ([], [])
  | d :: bs =>
    if ¬ cisdigit d then
      if (0 : Int) = order d then ndLoopR bs else Sum.inl (0 - order d)
    else Sum.inr ([], d :: bs)

/-- The first inner loop of `verrevcmp` in the case where string `b` is
already exhausted. -/
def ndLoopL : List Char → Int ⊕ (List Char × List Char)
  | [] => Sum.inr ([], [])
  | c :: as' =>
    if ¬ cisdigit c then
      if order c = 0 then ndLoopL as' else Sum.inl (order c - 0)
    else Sum.inr (c :: as', [])

/-- The first inner loop of `verrevcmp`: while either side's current byte is
a non-digit, compare the `order` values (an exhausted side counts as 0) and
advance both sides in lockstep.  `inl r` models the early `return ac - bc`,
`inr (a, b)` is the state when the loop condition goes false. -/
def ndLoop : List Char → List Char → Int ⊕ (List Char × List Char)
  | [], b => ndLoopR b
  | a, [] => ndLoopL a
  | c :: as', d :: bs =>
    if ¬ cisdigit c ∨ ¬ cisdigit d then
      if order c = order d then ndLoop as' bs else Sum.inl (order c - order d)
    else Sum.inr (c :: as', d :: bs)

/-- The digit-comparison loop of `verrevcmp`: while both sides are at a
digit, record the first difference and advance in lockstep. -/
def digLoop : List Char → List Char → Int → List Char × List Char × Int
  | c :: cs, d :: ds, fd =>
    if cisdigit c ∧ cisdigit d then
      digLoop cs ds (if fd = 0 then (c.toNat : Int) - (d.toNat : Int) else fd)
    else (c :: cs, d :: ds, fd)
  | a, b, fd => (a, b, fd)

/-- The outer loop of `verrevcmp`, with fuel standing in for the `for` loop
(every iteration either returns or consumes input, see
`verrevcmpAux_progress`, so the fuel supplied by `verrevcmp` never runs
out). -/
def verrevcmpAux : Nat → List Char → List Char → Int
  | 0, _, _ => 0
  | fuel + 1, a, b =>
    if a = [] ∧ b = [] then 0
    else
      match ndLoop a b with
      | Sum.inl r => r
      | Sum.inr (a1, b1) =>
        let a2 := a1.dropWhile (fun c => c = '0')
        let b2 := b1.dropWhile (fun c => c = '0')
        match digLoop a2 b2 0 with
        | (a3, b3, fd) =>
          if a3 ≠ [] ∧ cisdigit (a3.headD ' ') then 1
          else if b3 ≠ [] ∧ cisdigit (b3.headD ' ') then -1
          else if fd ≠ 0 then fd
          else verrevcmpAux fuel a3 b3

/-- `verrevcmp` from version.go: the dpkg fragment comparator. -/
def verrevcmp (a b : List Char) : Int := verrevcmpAux (a.length + b.length + 1) a b

/-- `Version.Compare`: epochs numerically, then the fragment comparator on
the upstream versions, then on the revisions. -/
def Compare (a b : Version) : Int :=
  if a.Epoch > b.Epoch then 1
  else if a.Epoch < b.Epoch then -1
  else
    let rc := verrevcmp a.Ver b.Ver
    if rc ≠ 0 then rc else verrevcmp a.Revision b.Revision

/-- The second half of `parseInto` from version.go, after the upstream
version and revision have been split at the last `-`: the leading-digit
check (guarded by non-emptiness) and the character-class checks. -/
def parseChecks (epoch : Nat) (ver rev : List Char) : Except String Version :=
  if ver ≠ [] ∧ ¬ (ver.headD ' ').isDigit then
    Except.error "version number does not start with digit"
  else if ver.any (fun c =>
      ¬ (cisdigit c ∨ cisalpha c ∨ c = '.' ∨ c = '-' ∨ c = '+' ∨ c = '~' ∨ c = ':')) then
    Except.error "invalid character in version number"
  else if rev.any (fun c =>
      ¬ (cisdigit c ∨ cisalpha c ∨ c = '.' ∨ c = '+' ∨ c = '~')) then
    Except.error "invalid character in revision number"
  else Except.ok ⟨epoch, ver, rev⟩

/-- The middle of `parseInto` from version.go: reject an empty remainder
after the epoch, then split at the last `-` (no `-` means an empty
revision). -/
def parseTail (epoch : Nat) (verAll : List Char) : Except String Version :=
  if verAll = [] then Except.error "nothing after colon in version number"
  else
    match lastIdx verAll '-' with
    | none => parseChecks epoch verAll []
    | some h => parseChecks epoch (verAll.take h) (verAll.drop (h + 1))

/-- `parseInto`/`Parse` from version.go: trim, reject embedded spaces,
parse the optional `<epoch>:` prefix, then the remainder. -/
def Parse (input : List Char) : Except String Version :=
  if trimSpace input = [] then Except.error "version string is empty"
  else if (trimSpace input).any goIsSpace then
    Except.error "version string has embedded spaces"
  else
    match firstIdx (trimSpace input) ':' with
    | none => parseTail 0 (trimSpace input)
    | some colon =>
      match parseInt64 ((trimSpace input).take colon) with
      | none => Except.error "epoch: parse error"
      | some e =>
        if e < 0 then Except.error "epoch in version is negative"
        else parseTail e.toNat ((trimSpace input).drop (colon + 1))

/-! Proof infrastructure for the fragment comparator: each byte string is
mapped to its list of comparison tokens — one `(order value, 0)` pair per
non-digit byte and one `(0, numeric value)` pair per maximal digit run — and
`verrevcmp` is shown to agree with a lexicographic comparison of token lists
padded with the neutral token `(0, 0)`. -/

/-- The sign of an integer comparison result, as an `Ordering`. -/
def sgn (i : Int) : Ordering :=
  if i < 0 then Ordering.lt else if 0 < i then Ordering.gt else Ordering.eq

/-- Numeric value of a digit run. -/
def digitsVal (l : List Char) : Nat := l.foldl (fun n c => 10 * n + (c.toNat - 48)) 0

/-- The token list of a byte string: non-digit bytes become `(order c, 0)`,
maximal digit runs become `(0, value)`. -/
def tokens : List Char → List (Int × Nat)
  | [] => []
  | c :: cs =>
    if _h : cisdigit c then
      (0, digitsVal (List.takeWhile cisdigit (c :: cs))) :: tokens (List.dropWhile cisdigit (c :: cs))
    else (order c, 0) :: tokens cs
  termination_by l => l.length
  decreasing_by
  · rw [List.dropWhile_cons_of_pos _h]
    exact Nat.lt_succ_of_le (List.Sublist.length_le (List.dropWhile_sublist cisdigit))
  · simp

/-- Lexicographic comparison of a single token pair. -/
def pcmp (x y : Int × Nat) : Ordering :=
  if x.1 < y.1 then Ordering.lt
  else if y.1 < x.1 then Ordering.gt
  else if x.2 < y.2 then Ordering.lt
  else if y.2 < x.2 then Ordering.gt
  else Ordering.eq

/-- Compare a token list against an all-neutral stream. -/
def padList : List (Int × Nat) → Ordering
  | [] => Ordering.eq
  | x :: xs =>
    match pcmp x (0, 0) with
    | Ordering.eq => padList xs
    | o => o

/-- Lexicographic comparison of token lists, the shorter list padded with
neutral tokens. -/
def padCmp : List (Int × Nat) → List (Int × Nat) → Ordering
  | [], v => (padList v).swap
  | u, [] => padList u
  | x :: xs, y :: ys =>
    match pcmp x y with
    | Ordering.eq => padCmp xs ys
    | o => o

/-- Three-way comparison on `Nat`. -/
def ncmp (n m : Nat) : Ordering :=
  if n < m then Ordering.lt else if m < n then Ordering.gt else Ordering.eq

/-- The first difference accumulator of the digit loop: returns `fd` if
nonzero, else the first nonzero byte difference. -/
def fdChain : Int → List Char → List Char → Int
  | fd, c :: cs, d :: ds => fdChain (if fd = 0 then (c.toNat : Int) - (d.toNat : Int) else fd) cs ds
  | fd, _, _ => fd

/-- A byte string with no NUL byte (`order` is nonzero on every non-digit
byte of such a string, which is what makes the comparator lawful). -/
def noNul (l : List Char) : Bool := l.all (fun c => c.toNat ≠ 0)

/-- The composite comparator a `Version` pair is proved to follow: epochs,
then the token lists of the upstream versions, then of the revisions. -/
def vcmp (a b : Version) : Ordering :=
  (ncmp a.Epoch b.Epoch).then
    ((padCmp (tokens a.Ver) (tokens b.Ver)).then
      (padCmp (tokens a.Revision) (tokens b.Revision)))

/-- `Version.StringWithoutEpoch`. -/
def StringWithoutEpoch (v : Version) : List Char :=
  v.Ver ++ (if v.Revision.length > 0 then '-' :: v.Revision else [])

/-- `Version.String`. -/
def toChars (v : Version) : List Char :=
  if v.Epoch > 0 then (Nat.repr v.Epoch).toList ++ ':' :: StringWithoutEpoch v
  else StringWithoutEpoch v

end version

namespace arch

/-- `arch.Arch`: a Debian architecture tuple `ABI-OS-CPU`. -/
structure Arch where
  ABI : List Char
  OS : List Char
  CPU : List Char
deriving DecidableEq, Repr

/-- `Arch.IsWildcard` from arch.go. -/
def IsWildcard (a : Arch) : Bool :=
  if a.CPU = "all".toList then false
  else if a.ABI = "any".toList ∨ a.OS = "any".toList ∨ a.CPU = "any".toList then true
  else false

/-- `Arch.Is` from arch.go: wildcard-aware equality.  Two wildcards never
match; a wildcard defers to the concrete side with the roles swapped. -/
def Is (a other : Arch) : Bool :=
  if _h1 : IsWildcard a ∧ IsWildcard other then false
  else if _h2 : IsWildcard a then Is other a
  else
    (a.CPU == other.CPU || (a.CPU != "all".toList && other.CPU == "any".toList)) &&
    (a.OS == other.OS || other.OS == "any".toList) &&
    (a.ABI == other.ABI || other.ABI == "any".toList)
termination_by (if IsWildcard a then 1 else 0)
decreasing_by
  have : ¬ IsWildcard other := fun ho => _h1 ⟨_h2, ho⟩
  simp [this, _h2]

/-- `parseArchInto` from arch.go, acting on the caller-initialised tuple
`ret` (so a two-segment string keeps the initial ABI). -/
def parseArchInto (ret : Arch) (archStr : List Char) : Except String Arch :=
  match archStr.splitOn '-' with
  | [flavor] =>
    if flavor = "all".toList ∨ flavor = "any".toList then Except.ok ⟨flavor, flavor, flavor⟩
    else Except.ok ⟨"gnu".toList, "linux".toList, flavor⟩
  | [osPart, cpu] => Except.ok ⟨ret.ABI, osPart, cpu⟩
  | [abi, osPart, cpu] => Except.ok ⟨abi, osPart, cpu⟩
  | _ => Except.error "invalid arch string"

/-- `arch.Parse`: parse starting from the all-`any` tuple. -/
def Parse (archStr : List Char) : Except String Arch :=
  parseArchInto ⟨"any".toList, "any".toList, "any".toList⟩ archStr

/-- `Arch.String` from arch.go: canonical printing, omitting default ABI/OS. -/
def toChars (a : Arch) : List Char :=
  let els : List (List Char) :=
    (if a.ABI ≠ "any".toList ∧ a.ABI ≠ "all".toList ∧ a.ABI ≠ "gnu".toList ∧ a.ABI ≠ [] then
      [a.ABI] else []) ++
    (if a.OS ≠ "any".toList ∧ a.OS ≠ "all".toList ∧ a.OS ≠ "linux".toList then
      [a.OS] else []) ++
    [a.CPU]
  List.intercalate ['-'] els

end arch

namespace dependency

/-- `dependency.VersionRelation`: `(<op> <version>)`. -/
structure VersionRelation where
  Ver : version.Version
  Operator : List Char
deriving DecidableEq, Repr

/-- `dependency.Stage`. -/
structure Stage where
  Not : Bool
  Name : List Char
deriving DecidableEq, Repr

/-- `dependency.StageSet`: `< stage... >`. -/
structure StageSet where
  Stages : List Stage
deriving DecidableEq, Repr

/-- `dependency.ArchSet`: `[ arch... ]`, possibly negated as a block. -/
structure ArchSet where
  Not : Bool
  Architectures : List arch.Arch
deriving DecidableEq, Repr

/-- `dependency.Possibility`.  `Arch` is the `:`-qualifier; `Architectures`
is the `[...]` restriction set (a nil pointer is `none`; the parser
initialises it to an empty set except on the substvar path). -/
structure Possibility where
  Name : List Char
  Arch : Option arch.Arch
  Architectures : Option ArchSet
  StageSets : List StageSet
  Ver : Option VersionRelation
  Substvar : Bool
deriving DecidableEq, Repr

/-- `dependency.Relation`: alternatives joined by `|`. -/
structure Relation where
  Possibilities : List Possibility
deriving DecidableEq, Repr

/-- `dependency.Dependency`: relations joined by `,`. -/
structure Dependency where
  Relations : List Relation
deriving DecidableEq, Repr

/-- `ArchSet.String`. -/
def ArchSet.toChars (set : ArchSet) : List Char :=
  if set.Architectures = [] then []
  else
    let nt : List Char := if set.Not then ['!'] else []
    '[' :: List.intercalate [' '] (set.Architectures.map (fun a => nt ++ arch.toChars a)) ++ [']']

/-- `VersionRelation.String`. -/
def VersionRelation.toChars (ver : VersionRelation) : List Char :=
  '(' :: ver.Operator ++ ' ' :: version.toChars ver.Ver ++ [')']

/-- `Stage.String`. -/
def Stage.toChars (stage : Stage) : List Char :=
  if stage.Not then '!' :: stage.Name else stage.Name

/-- `StageSet.String`. -/
def StageSet.toChars (set : StageSet) : List Char :=
  if set.Stages = [] then []
  else '<' :: List.intercalate [' '] (set.Stages.map Stage.toChars) ++ ['>']

/-- `Possibility.String`: name, `:`-qualifier, arch set, version relation,
stage sets, in that canonical order. -/
def Possibility.toChars (pos : Possibility) : List Char :=
  let s1 := pos.Name ++ (match pos.Arch with
    | none => []
    | some a => ':' :: arch.toChars a)
  let s2 := s1 ++ (match pos.Architectures with
    | none => []
    | some set => match ArchSet.toChars set with
      | [] => []
      | cs => ' ' :: cs)
  let s3 := s2 ++ (match pos.Ver with
    | none => []
    | some vr => ' ' :: VersionRelation.toChars vr)
  pos.StageSets.foldl (fun acc ss =>
    acc ++ (match StageSet.toChars ss with
      | [] => []
      | cs => ' ' :: cs)) s3

/-- `Relation.String`. -/
def Relation.toChars (rel : Relation) : List Char :=
  List.intercalate " | ".toList (rel.Possibilities.map Possibility.toChars)

/-- `Dependency.String`. -/
def Dependency.toChars (dep : Dependency) : List Char :=
  List.intercalate ", ".toList (dep.Relations.map Relation.toChars)

/-- Result of one parsing step: the updated value together with the
remaining input, a parse error, or fuel exhaustion (which never occurs for
the fuel supplied by `Parse`). -/
inductive PRes (α : Type) where
  | ok (val : α) (rest : List Char)
  | err (msg : String)
  | div
deriving DecidableEq, Repr

/-- The name-accumulating loop of `parsePossibilityArch`: read an
architecture name up to `]` or space, rejecting an embedded `!`. -/
def archNameLoop : Nat → List Char → Possibility → List Char → PRes Possibility
  | 0, _, _, _ => .div
  | fuel + 1, input, possi, name =>
    match input with
    | [] => .err "reached EOF before Arch list finished"
    | '!' :: _ => .err "you can only negate whole blocks"
    | ']' :: _ =>
      (match arch.Parse name with
      | Except.error m => .err m
      | Except.ok a =>
        let curSet := possi.Architectures.getD ⟨false, []⟩
        .ok { possi with Architectures := some { curSet with Architectures := curSet.Architectures ++ [a] } } input)
    | ' ' :: _ =>
      (match arch.Parse name with
      | Except.error m => .err m
      | Except.ok a =>
        let curSet := possi.Architectures.getD ⟨false, []⟩
        .ok { possi with Architectures := some { curSet with Architectures := curSet.Architectures ++ [a] } } input)
    | c :: rest => archNameLoop fuel rest possi (name ++ [c])

/-- `parsePossibilityArch`: optional leading `!` (which must agree with the
block's negation flag), then the architecture name.  On this code path
`Architectures` is always an initialised (non-nil) set. -/
def parsePossibilityArch (fuel : Nat) (input : List Char) (possi : Possibility) : PRes Possibility :=
  let input := input.dropWhile goIsSpace
  match input with
  | [] => .err "EOF"
  | c :: rest =>
    let hasNot := c = '!'
    let input' := if hasNot then rest else c :: rest
    let curSet := possi.Architectures.getD ⟨false, []⟩
    if curSet.Architectures = [] then
      archNameLoop fuel input' { possi with Architectures := some { curSet with Not := hasNot } } []
    else if curSet.Not ≠ hasNot then .err "cannot mix negated and non-negated architectures"
    else archNameLoop fuel input' possi []

/-- The loop of `parsePossibilityArchs`: parse architecture names until the
closing `]`. -/
def archsLoop : Nat → List Char → Possibility → PRes Possibility
  | 0, _, _ => .div
  | fuel + 1, input, possi =>
    match input with
    | [] => .err "reached EOF before Arch list finished"
    | ']' :: rest => .ok possi rest
    | _ =>
      match parsePossibilityArch fuel input possi with
      | .ok possi' rest => archsLoop fuel rest possi'
      | .err m => .err m
      | .div => .div

/-- `parsePossibilityArchs`: skip whitespace, consume `[`, then the list. -/
def parsePossibilityArchs (fuel : Nat) (input : List Char) (possi : Possibility) : PRes Possibility :=
  archsLoop fuel ((input.dropWhile goIsSpace).drop 1) possi

/-- The loop of `parsePossibilityStage`: accumulate a stage name, handling
`!` negation (double negation is an error), up to `>` or space. -/
def stageLoop : Nat → List Char → StageSet → Stage → PRes StageSet
  | 0, _, _, _ => .div
  | fuel + 1, input, ss, stage =>
    match input with
    | [] => .err "reached EOF before Stage finished"
    | '!' :: rest =>
      if stage.Not then .err "double negation in Stage is not permitted"
      else stageLoop fuel rest ss { stage with Not := true }
    | '>' :: _ => .ok { ss with Stages := ss.Stages ++ [stage] } input
    | ' ' :: _ => .ok { ss with Stages := ss.Stages ++ [stage] } input
    | c :: rest => stageLoop fuel rest ss { stage with Name := stage.Name ++ [c] }

/-- `parsePossibilityStage`. -/
def parsePossibilityStage (fuel : Nat) (input : List Char) (ss : StageSet) : PRes StageSet :=
  stageLoop fuel (input.dropWhile goIsSpace) ss ⟨false, []⟩

/-- The loop of `parsePossibilityStageSet`: parse stages until `>`. -/
def stageSetLoop : Nat → List Char → Possibility → StageSet → PRes Possibility
  | 0, _, _, _ => .div
  | fuel + 1, input, possi, ss =>
    match input with
    | [] => .err "reached EOF before StageSet finished"
    | '>' :: rest => .ok { possi with StageSets := possi.StageSets ++ [ss] } rest
    | _ =>
      match parsePossibilityStage fuel input ss with
      | .ok ss' rest => stageSetLoop fuel rest possi ss'
      | .err m => .err m
      | .div => .div

/-- `parsePossibilityStageSet`: skip whitespace, consume `<`, then stages. -/
def parsePossibilityStageSet (fuel : Nat) (input : List Char) (possi : Possibility) : PRes Possibility :=
  stageSetLoop fuel ((input.dropWhile goIsSpace).drop 1) possi ⟨[]⟩

/-- The loop of `parsePossibilityNumber`: accumulate the version string up
to (but not consuming) `)`, then parse it as a dpkg version. -/
def numberLoop : Nat → List Char → List Char → PRes version.Version
  | 0, _, _ => .div
  | fuel + 1, input, acc =>
    match input with
    | [] => .err "reached EOF before Number finished"
    | ')' :: rest =>
      (match version.Parse acc with
      | Except.error m => .err m
      | Except.ok v => .ok v (')' :: rest))
    | c :: rest => numberLoop fuel rest (acc ++ [c])

/-- `parsePossibilityOperator` followed by `parsePossibilityNumber` and the
closing `)`, as done by `parsePossibilityVersion`. -/
def parsePossibilityVersion (fuel : Nat) (input : List Char) (possi : Possibility) : PRes Possibility :=
  let input := (input.dropWhile goIsSpace).drop 1
  let input := input.dropWhile goIsSpace
  match input with
  | [] => .err "reached EOF before Operator finished"
  | '=' :: rest =>
    (match numberLoop fuel (rest.dropWhile goIsSpace) [] with
    | .ok v vrest => .ok { possi with Ver := some ⟨v, "=".toList⟩ } (vrest.drop 1)
    | .err m => .err m
    | .div => .div)
  | c1 :: rest =>
    match rest with
    | [] => .err "reached EOF before Operator finished"
    | c2 :: rest2 =>
      let op := [c1, c2]
      if op = ">=".toList ∨ op = "<=".toList ∨ op = "<<".toList ∨ op = ">>".toList then
        match numberLoop fuel (rest2.dropWhile goIsSpace) [] with
        | .ok v vrest => .ok { possi with Ver := some ⟨v, op⟩ } (vrest.drop 1)
        | .err m => .err m
        | .div => .div
      else .err "unknown Operator in Possibility Version modifier"

/-- The loop of `parsePossibilityControllers`: repeatedly dispatch on `(`,
`[` and `<` (enforcing at most one version relation and one arch set),
stopping at `,`/`|`/end and rejecting anything else. -/
def controllersLoop : Nat → List Char → Possibility → PRes Possibility
  | 0, _, _ => .div
  | fuel + 1, input, possi =>
    let input := input.dropWhile goIsSpace
    match input with
    | [] => .ok possi []
    | ',' :: _ => .ok possi input
    | '|' :: _ => .ok possi input
    | '(' :: _ =>
      if possi.Ver ≠ none then .err "only one Version relation per Possibility"
      else
        (match parsePossibilityVersion fuel input possi with
        | .ok possi' rest => controllersLoop fuel rest possi'
        | .err m => .err m
        | .div => .div)
    | '[' :: _ =>
      if (possi.Architectures.getD ⟨false, []⟩).Architectures ≠ [] then
        .err "only one Arch relation per Possibility"
      else
        (match parsePossibilityArchs fuel input possi with
        | .ok possi' rest => controllersLoop fuel rest possi'
        | .err m => .err m
        | .div => .div)
    | '<' :: _ =>
      (match parsePossibilityStageSet fuel input possi with
      | .ok possi' rest => controllersLoop fuel rest possi'
      | .err m => .err m
      | .div => .div)
    | _ => .err "trailing garbage in Possibility"

/-- The loop of `parseMultiarch`: accumulate the architecture qualifier up
to a control character or end. -/
def multiarchLoop : Nat → List Char → List Char → PRes arch.Arch
  | 0, _, _ => .div
  | fuel + 1, input, name =>
    match input with
    | [] =>
      (match arch.Parse name with
      | Except.error m => .err m
      | Except.ok a => .ok a [])
    | c :: rest =>
      if c = ',' ∨ c = '|' ∨ c = ' ' ∨ c = '(' ∨ c = '[' ∨ c = '<' then
        match arch.Parse name with
        | Except.error m => .err m
        | Except.ok a => .ok a (c :: rest)
      else multiarchLoop fuel rest (name ++ [c])

/-- The main loop of `parsePossibility`: build up the name, dispatching to
`parseMultiarch` on `:` and to the controllers on space or `(`. -/
def possibilityLoop : Nat → List Char → Relation → Possibility → PRes Relation
  | 0, _, _, _ => .div
  | fuel + 1, input, rel, ret =>
    match input with
    | [] =>
      if ret.Name = [] then .ok rel []
      else .ok { rel with Possibilities := rel.Possibilities ++ [ret] } []
    | ':' :: rest =>
      (match multiarchLoop fuel rest [] with
      | .ok a arest => possibilityLoop fuel arest rel { ret with Arch := some a }
      | .err m => .err m
      | .div => .div)
    | ' ' :: _ =>
      (match controllersLoop fuel input ret with
      | .ok ret' rest => possibilityLoop fuel rest rel ret'
      | .err m => .err m
      | .div => .div)
    | '(' :: _ =>
      (match controllersLoop fuel input ret with
      | .ok ret' rest => possibilityLoop fuel rest rel ret'
      | .err m => .err m
      | .div => .div)
    | ',' :: _ =>
      if ret.Name = [] then .ok rel input
      else .ok { rel with Possibilities := rel.Possibilities ++ [ret] } input
    | '|' :: _ =>
      if ret.Name = [] then .ok rel input
      else .ok { rel with Possibilities := rel.Possibilities ++ [ret] } input
    | c :: rest => possibilityLoop fuel rest rel { ret with Name := ret.Name ++ [c] }

/-- The loop of `parseSubstvar`: accumulate the name up to `}`. -/
def substvarLoop : Nat → List Char → Relation → List Char → PRes Relation
  | 0, _, _, _ => .div
  | fuel + 1, input, rel, name =>
    match input with
    | [] => .err "reached EOF before Substvar finished"
    | '}' :: rest =>
      .ok { rel with Possibilities := rel.Possibilities ++
        [{ Name := name, Arch := none, Architectures := none,
           StageSets := [], Ver := none, Substvar := true }] } rest
    | c :: rest => substvarLoop fuel rest rel (name ++ [c])

/-- `parseSubstvar`: skip whitespace, consume `${`, then the name. -/
def parseSubstvar (fuel : Nat) (input : List Char) (rel : Relation) : PRes Relation :=
  substvarLoop fuel ((input.dropWhile goIsSpace).drop 2) rel []

/-- `parsePossibility`: dispatch between a substitution variable and an
ordinary possibility (whose arch set starts out initialised and empty). -/
def parsePossibility (fuel : Nat) (input : List Char) (rel : Relation) : PRes Relation :=
  let input := input.dropWhile goIsSpace
  match input with
  | [] => .err "EOF"
  | '$' :: _ => parseSubstvar fuel input rel
  | _ => possibilityLoop fuel input rel
      { Name := [], Arch := none, Architectures := some ⟨false, []⟩,
        StageSets := [], Ver := none, Substvar := false }

/-- The loop of `parseRelation`: possibilities separated by `|`, ending at
`,` or end of input. -/
def relationLoop : Nat → List Char → Dependency → Relation → PRes Dependency
  | 0, _, _, _ => .div
  | fuel + 1, input, dep, rel =>
    match input with
    | [] => .ok { dep with Relations := dep.Relations ++ [rel] } []
    | ',' :: _ => .ok { dep with Relations := dep.Relations ++ [rel] } input
    | '|' :: rest => relationLoop fuel (rest.dropWhile goIsSpace) dep rel
    | _ =>
      match parsePossibility fuel input rel with
      | .ok rel' rest => relationLoop fuel rest dep rel'
      | .err m => .err m
      | .div => .div

/-- `parseRelation`. -/
def parseRelation (fuel : Nat) (input : List Char) (dep : Dependency) : PRes Dependency :=
  relationLoop fuel (input.dropWhile goIsSpace) dep ⟨[]⟩

/-- The loop of `parseDependency`: relations separated by `,`. -/
def dependencyLoop : Nat → List Char → Dependency → PRes Dependency
  | 0, _, _ => .div
  | fuel + 1, input, ret =>
    match input with
    | [] => .ok ret []
    | ',' :: rest => dependencyLoop fuel (rest.dropWhile goIsSpace) ret
    | _ =>
      match parseRelation fuel input ret with
      | .ok ret' rest => dependencyLoop fuel rest ret'
      | .err m => .err m
      | .div => .div

/-- `dependency.Parse`.  The fuel bounds the total number of loop
iterations; every iteration of every loop consumes input or immediately
returns through a bounded number of levels, so linear fuel suffices for the
concrete inputs considered here (fuel exhaustion would surface as `.div`,
never as `.ok` or `.err`). -/
def Parse (input : List Char) : PRes Dependency :=
  dependencyLoop (8 * input.length + 64) (input.dropWhile goIsSpace) ⟨[]⟩

end dependency

namespace deb822

/-- `deb822.Stanza`: the ordered key/value record.  The Go `Values` field is
a `map[string]string` whose zero value is nil: `none` models the nil map,
`some m` an allocated map represented as an association list with unique
keys. -/
structure Stanza where
  Values : Option (List (List Char × List Char))
  Order : List (List Char)
deriving DecidableEq, Repr

/-- The empty stanza (`var paragraph Stanza`): nil map, empty order. -/
def Stanza.empty : Stanza := ⟨none, []⟩

/-- Go map lookup on the association list. -/
def assocGet (m : List (List Char × List Char)) (k : List Char) : Option (List Char) :=
  (m.find? (fun p => p.1 = k)).map (fun p => p.2)

/-- Go map assignment on the association list: replace the existing entry or
append a new one. -/
def assocSet (m : List (List Char × List Char)) (k v : List Char) :
    List (List Char × List Char) :=
  if m.any (fun p => p.1 = k) then m.map (fun p => if p.1 = k then (k, v) else p)
  else m ++ [(k, v)]

/-- Reading `p.Values[k]` in Go: a nil map and a missing key both read as
the empty string. -/
def Stanza.get (p : Stanza) (k : List Char) : List Char :=
  match p.Values with
  | none => []
  | some m => (assocGet m k).getD []

/-- `Stanza.Set` from stanza.go: allocate the map if needed; an existing key
is updated in place, a new key is appended to both the map and the order. -/
def Stanza.Set (p : Stanza) (key value : List Char) : Stanza :=
  let m := match p.Values with
    | none => []
    | some m => m
  match assocGet m key with
  | some _ => { p with Values := some (assocSet m key value) }
  | none => { Values := some (assocSet m key value), Order := p.Order ++ [key] }

/-- The result of `StanzaReader.Next`: a parsed stanza together with the
unconsumed input, end of input (`io.EOF`), a malformed-line error, a Go
runtime panic (assignment to a nil map), or fuel exhaustion (unreachable for
the fuel supplied by `Next`). -/
inductive NextRes where
  | stanza (s : Stanza) (rest : List Char)
  | eof
  | err (msg : String)
  | panicked
  | div
deriving DecidableEq, Repr

/-- `bufio.ReadString('\n')` as used by `Next`: the line up to and including
the newline; a final unterminated line has a newline appended (the `io.EOF`
with non-empty line case in the Go code). -/
def readLine (input : List Char) : List Char × List Char :=
  match input.findIdx? (fun c => c = '\n') with
  | some i => (input.take (i + 1), input.drop (i + 1))
  | none => (input ++ ['\n'], [])

/-- Does the line have a `\n` suffix (`strings.HasSuffix(v, "\n")`)? -/
def endsWithNl (l : List Char) : Bool := l.getLast? = some '\n'

/-- `strings.SplitN(line, ":", 2)`: `none` when there is no colon. -/
def splitFirstColon (l : List Char) : Option (List Char × List Char) :=
  match firstIdx l ':' with
  | none => none
  | some i => some (l.take i, l.drop (i + 1))

/-- The loop of `StanzaReader.Next`, line by line.  `para` and `lastKey` are
the loop state.  A continuation line writes directly to the `Values` map,
bypassing `Set`; when the map is still nil this is a Go runtime panic
(`assignment to entry in nil map`), modelled as `.panicked`. -/
def nextF : Nat → List Char → Stanza → List Char → NextRes
  | 0, _, _, _ => .div
  | fuel + 1, input, para, lastKey =>
    match input with
    | [] =>
      if para.Order.length > 0 then .stanza para [] else .eof
    | _ =>
      let (line, rest) := readLine input
      if trimSpace line = [] then
        if para.Order.length = 0 then nextF fuel rest para lastKey
        else .stanza para rest
      else if line.headD ' ' = '#' then nextF fuel rest para lastKey
      else if line.headD '#' = ' ' ∨ line.headD '#' = '\t' then
        let cleaned := trimRight (line.drop 1)
        let cleaned := if cleaned = ['.'] then [] else cleaned
        if Stanza.get para lastKey = [] then
          match para.Values with
          | none => .panicked
          | some m =>
            nextF fuel rest { para with Values := some (assocSet m lastKey (cleaned ++ ['\n'])) } lastKey
        else
          let old := Stanza.get para lastKey
          let withNl := if ¬ endsWithNl old then old ++ ['\n'] else old
          match para.Values with
          | none => .panicked
          | some m =>
            nextF fuel rest { para with Values := some (assocSet m lastKey (withNl ++ cleaned ++ ['\n'])) } lastKey
      else
        match splitFirstColon line with
        | none => .err "could not parse line"
        | some (lhs, rhs) =>
          let key := trimSpace lhs
          let value := trimSpace rhs
          nextF fuel rest (para.Set key value) key

/-- `StanzaReader.Next`: each loop iteration consumes at least one input
character, so `length + 1` fuel is always enough. -/
def Next (input : List Char) : NextRes := nextF (input.length + 1) input Stanza.empty []

/-- The clearsign preamble peeked at by `NewStanzaReader`. -/
def clearsignMagic : List Char := "-----BEGIN PGP ".toList

/-- Modelled from the spec: the external OpenPGP clearsign collaborator
(`clearsign.Decode`), which recovers the first clearsigned block — the
embedded plaintext plus the signature's key identity — or nothing when the
envelope is malformed.  The armored envelope itself is external to this
repository; it is modelled concretely as the preamble, one key-identity
byte, then the plaintext. -/
def clearsignDecode (signedData : List Char) : Option (List Char × Nat) :=
  if clearsignMagic.isPrefixOf signedData then
    match signedData.drop 15 with
    | [] => none
    | k :: payload => some (payload, k.toNat)
  else none

/-- Modelled from the spec: the external signature-verification collaborator
(`openpgp.CheckDetachedSignature`), which succeeds exactly when the keyring
contains the signing key; with no matching key — in particular with a nil or
empty keyring — it fails with an unknown-issuer error (the repository's own
test asserts this error for the empty keyring). -/
def checkDetachedSignature (keyring : List Nat) (sigKey : Nat) : Except String Nat :=
  if keyring.contains sigKey then Except.ok sigKey else Except.error "unknown issuer"

/-- The state held by a constructed `StanzaReader`: the (possibly unwrapped)
content and the signer identity, if any. -/
structure StanzaReader where
  content : List Char
  signer : Option Nat
deriving DecidableEq, Repr

/-- `StanzaReader.decodeClearsig`: decode the clearsigned block, then check
the detached signature against the keyring unconditionally — there is no
nil-keyring bypass on this path. -/
def decodeClearsig (keyring : List Nat) (signedData : List Char) : Except String StanzaReader :=
  match clearsignDecode signedData with
  | none => Except.error "invalid clearsigned input"
  | some (payload, sigKey) =>
    match checkDetachedSignature keyring sigKey with
    | Except.error e => Except.error e
    | Except.ok signerK => Except.ok ⟨payload, some signerK⟩

/-- `NewStanzaReader`: peek the first 15 bytes; without the clearsign
preamble the raw stream is used as-is, otherwise the clearsign path runs. -/
def NewStanzaReader (input : List Char) (keyring : List Nat) : Except String StanzaReader :=
  if input.take 15 ≠ clearsignMagic then Except.ok ⟨input, none⟩
  else decodeClearsig keyring input

/-- Apply a sequence of `Set` calls, in order, to a stanza. -/
def applySets (ops : List (List Char × List Char)) (s : Stanza) : Stanza :=
  ops.foldl (fun st p => st.Set p.1 p.2) s

/-- Whether `k` is a key of the `Values` map. -/
def Stanza.hasKey (p : Stanza) (k : List Char) : Bool :=
  match p.Values with
  | none => false
  | some m => m.any (fun q => q.1 = k)

/-- The keys of the `Values` map, in association-list order. -/
def Stanza.keys (p : Stanza) : List (List Char) :=
  match p.Values with
  | none => []
  | some m => m.map (fun q => q.1)

/-- Whether the first non-blank, non-comment line of the input begins with
a space or tab (fuelled exactly like `nextF`). -/
def contFirstF : Nat → List Char → Bool
  | 0, _ => false
  | fuel + 1, input =>
    match input with
    | [] => false
    | _ =>
      let (line, rest) := readLine input
      if trimSpace line = [] then contFirstF fuel rest
      else if line.headD ' ' = '#' then contFirstF fuel rest
      else line.headD '#' == ' ' || line.headD '#' == '\t'

/-- Whether the first non-blank, non-comment line of the input is a
continuation line. -/
def contFirst (input : List Char) : Bool := contFirstF (input.length + 1) input

end deb822

/-! ### Claims C5, C7, C8: direct computations -/

/-- C5: `version.Parse` succeeds on `"0"`, `"0:0"`, `"0:0-"` and `"0:0-0"`,
and `Compare` between any two of the four parsed results returns 0. -/
theorem parse_zero_class_all_equal :
    version.Parse "0".toList = Except.ok ⟨0, "0".toList, []⟩ ∧
    version.Parse "0:0".toList = Except.ok ⟨0, "0".toList, []⟩ ∧
    version.Parse "0:0-".toList = Except.ok ⟨0, "0".toList, []⟩ ∧
    version.Parse "0:0-0".toList = Except.ok ⟨0, "0".toList, "0".toList⟩ ∧
    (([⟨0, "0".toList, []⟩, ⟨0, "0".toList, []⟩, ⟨0, "0".toList, []⟩,
       ⟨0, "0".toList, "0".toList⟩] : List version.Version).all fun a =>
      ([⟨0, "0".toList, []⟩, ⟨0, "0".toList, []⟩, ⟨0, "0".toList, []⟩,
        ⟨0, "0".toList, "0".toList⟩] : List version.Version).all fun b =>
        version.Compare a b = 0) = true :=
  ⟨rfl, rfl, rfl, rfl, by decide⟩

/-- C7: reading `"Key1: one\n\t continuation\n"` decodes `Key1` to
`"one\n continuation\n"`: the tab is stripped, the line is right-trimmed and
appended newline-joined. -/
theorem next_continuation_example :
    deb822.Next "Key1: one\n\t continuation\n".toList =
      deb822.NextRes.stanza
        ⟨some [("Key1".toList, "one\n continuation\n".toList)], ["Key1".toList]⟩ [] :=
  rfl

/-- C8: the four malformed dependency strings are all rejected, each with
the error produced by the corresponding guard in the parser. -/
theorem dependency_parse_four_errors :
    dependency.Parse "foo bar".toList =
      dependency.PRes.err "trailing garbage in Possibility" ∧
    dependency.Parse "foo (>= 1.0) (<= 2.0)".toList =
      dependency.PRes.err "only one Version relation per Possibility" ∧
    dependency.Parse "foo [amd64] [sparc]".toList =
      dependency.PRes.err "only one Arch relation per Possibility" ∧
    dependency.Parse "foo [arch !foo]".toList =
      dependency.PRes.err "cannot mix negated and non-negated architectures" :=
  ⟨rfl, rfl, rfl, rfl⟩

/-! ### Claim C2: parse/format idempotency -/

/-- C2 counterexample: `"foo:linux-amd64"` is accepted, but its canonical
form `"foo:amd64"` re-parses to a structurally different value (the ABI of
the two-segment qualifier stays `any` while the one-segment canonical form
defaults it to `gnu`), so `Parse (Parse s |> String)` is not structurally
equal to `Parse s` for every accepted `s`. -/
theorem dependency_roundtrip_counterexample :
    dependency.Parse "foo:linux-amd64".toList =
      dependency.PRes.ok
        ⟨[⟨[⟨"foo".toList, some ⟨"any".toList, "linux".toList, "amd64".toList⟩,
            some ⟨false, []⟩, [], none, false⟩]⟩]⟩ [] ∧
    dependency.Dependency.toChars
        ⟨[⟨[⟨"foo".toList, some ⟨"any".toList, "linux".toList, "amd64".toList⟩,
            some ⟨false, []⟩, [], none, false⟩]⟩]⟩ = "foo:amd64".toList ∧
    dependency.Parse "foo:amd64".toList =
      dependency.PRes.ok
        ⟨[⟨[⟨"foo".toList, some ⟨"gnu".toList, "linux".toList, "amd64".toList⟩,
            some ⟨false, []⟩, [], none, false⟩]⟩]⟩ [] ∧
    (⟨[⟨[⟨"foo".toList, some ⟨"any".toList, "linux".toList, "amd64".toList⟩,
         some ⟨false, []⟩, [], none, false⟩]⟩]⟩ : dependency.Dependency) ≠
      ⟨[⟨[⟨"foo".toList, some ⟨"gnu".toList, "linux".toList, "amd64".toList⟩,
          some ⟨false, []⟩, [], none, false⟩]⟩]⟩ :=
  ⟨rfl, rfl, rfl, by decide⟩

/-- C2 amended: for the specific example of the claim the idempotent
canonicalisation does hold — parsing the example yields exactly the value
below, formatting it gives the canonical string, and re-parsing the
canonical string gives the same value again (hence re-formatting is a fixed
point). -/
theorem dependency_roundtrip_example :
    dependency.Parse
        "foo:armhf <stage1 !cross> [amd64 i386] (>= 12:3.4~5.6-7.8~9.0) <!stage1 cross>".toList =
      dependency.PRes.ok
        ⟨[⟨[⟨"foo".toList, some ⟨"gnu".toList, "linux".toList, "armhf".toList⟩,
            some ⟨false, [⟨"gnu".toList, "linux".toList, "amd64".toList⟩,
                          ⟨"gnu".toList, "linux".toList, "i386".toList⟩]⟩,
            [⟨[⟨false, "stage1".toList⟩, ⟨true, "cross".toList⟩]⟩,
             ⟨[⟨true, "stage1".toList⟩, ⟨false, "cross".toList⟩]⟩],
            some ⟨⟨12, "3.4~5.6".toList, "7.8~9.0".toList⟩, ">=".toList⟩,
            false⟩]⟩]⟩ [] ∧
    dependency.Dependency.toChars
        ⟨[⟨[⟨"foo".toList, some ⟨"gnu".toList, "linux".toList, "armhf".toList⟩,
            some ⟨false, [⟨"gnu".toList, "linux".toList, "amd64".toList⟩,
                          ⟨"gnu".toList, "linux".toList, "i386".toList⟩]⟩,
            [⟨[⟨false, "stage1".toList⟩, ⟨true, "cross".toList⟩]⟩,
             ⟨[⟨true, "stage1".toList⟩, ⟨false, "cross".toList⟩]⟩],
            some ⟨⟨12, "3.4~5.6".toList, "7.8~9.0".toList⟩, ">=".toList⟩,
            false⟩]⟩]⟩ =
      "foo:armhf [amd64 i386] (>= 12:3.4~5.6-7.8~9.0) <stage1 !cross> <!stage1 cross>".toList ∧
    dependency.Parse
        "foo:armhf [amd64 i386] (>= 12:3.4~5.6-7.8~9.0) <stage1 !cross> <!stage1 cross>".toList =
      dependency.PRes.ok
        ⟨[⟨[⟨"foo".toList, some ⟨"gnu".toList, "linux".toList, "armhf".toList⟩,
            some ⟨false, [⟨"gnu".toList, "linux".toList, "amd64".toList⟩,
                          ⟨"gnu".toList, "linux".toList, "i386".toList⟩]⟩,
            [⟨[⟨false, "stage1".toList⟩, ⟨true, "cross".toList⟩]⟩,
             ⟨[⟨true, "stage1".toList⟩, ⟨false, "cross".toList⟩]⟩],
            some ⟨⟨12, "3.4~5.6".toList, "7.8~9.0".toList⟩, ">=".toList⟩,
            false⟩]⟩]⟩ [] :=
  ⟨rfl, rfl, rfl⟩

/-! ### Claim C3: parsed versions and the leading-digit invariant -/

/-- C3 counterexample: `version.Parse "-"` succeeds with an *empty* upstream
version (the leading-digit check is guarded by `len > 0`), refuting both the
non-emptiness invariant and the claimed equivalence. -/
theorem parse_empty_version_counterexample :
    version.Parse ['-'] = Except.ok ⟨0, [], []⟩ ∧
    ¬ (∀ s v, version.Parse s = Except.ok v →
        v.Ver ≠ [] ∧ (v.Ver.headD ' ').isDigit) := by
  refine ⟨rfl, fun h => ?_⟩
  exact (h ['-'] ⟨0, [], []⟩ rfl).1 rfl

/-! ### Claim C4: totality of `Next` -/

/-- C4 counterexample: on a stream whose first line is a continuation line
the Go code assigns into the still-nil `Values` map, which is a runtime
panic, not a stanza or an error. -/
theorem next_nil_map_panic :
    deb822.Next " x\n".toList = deb822.NextRes.panicked ∧
    ¬ (∀ input, deb822.Next input ≠ deb822.NextRes.panicked) :=
  ⟨rfl, fun h => h " x\n".toList rfl⟩

/-- `Set` always leaves the `Values` map allocated. -/
theorem set_values_ne_none : ∀ (p : deb822.Stanza) k v,
    (deb822.Stanza.Set p k v).Values ≠ none := by
  intro p k v
  unfold deb822.Stanza.Set
  split <;> (dsimp only; split <;> simp)

/-- The panic in `nextF` is only reachable while the `Values` map is still
nil, i.e. while no field line of the current stanza has been seen; if the
first non-blank, non-comment line is not a continuation line, `Next` cannot
panic. -/
theorem nextF_no_panic : ∀ fuel input (para : deb822.Stanza) k,
    (para.Values = none → deb822.contFirstF fuel input = false) →
    deb822.nextF fuel input para k ≠ deb822.NextRes.panicked := by
  intro fuel
  induction fuel with
  | zero => intro input para k _; simp [deb822.nextF]
  | succ fuel ih =>
    intro input para k hinv
    match input with
    | [] =>
      simp only [deb822.nextF]
      split <;> simp
    | i :: is =>
      simp only [deb822.nextF]
      rcases hrl : deb822.readLine (i :: is) with ⟨line, rest⟩
      dsimp only
      by_cases hb : trimSpace line = []
      · simp only [hb, if_pos rfl, if_true]
        split
        · apply ih
          intro hv
          have h2 := hinv hv
          simp only [deb822.contFirstF] at h2
          rw [hrl] at h2
          dsimp only at h2
          rw [if_pos hb] at h2
          exact h2
        · simp
      · rw [if_neg hb]
        by_cases hc : line.headD ' ' = '#'
        · rw [if_pos hc]
          apply ih
          intro hv
          have h2 := hinv hv
          simp only [deb822.contFirstF] at h2
          rw [hrl] at h2
          dsimp only at h2
          rw [if_neg hb, if_pos hc] at h2
          exact h2
        · rw [if_neg hc]
          by_cases hcont : line.headD '#' = ' ' ∨ line.headD '#' = '\t'
          · rw [if_pos hcont]
            rcases hpv : para.Values with _ | m
            · exfalso
              have h2 := hinv hpv
              simp only [deb822.contFirstF] at h2
              rw [hrl] at h2
              dsimp only at h2
              rw [if_neg hb, if_neg hc] at h2
              simp only [Bool.or_eq_false_iff, beq_eq_false_iff_ne] at h2
              rcases hcont with hcont | hcont
              · exact h2.1 hcont
              · exact h2.2 hcont
            · simp only [hpv]
              split
              · apply ih
                intro hv
                simp at hv
              · apply ih
                intro hv
                simp at hv
          · rw [if_neg hcont]
            rcases hsp : deb822.splitFirstColon line with _ | ⟨l, r⟩
            · simp
            · simp only []
              apply ih
              intro hv
              exact absurd hv (set_values_ne_none _ _ _)

/-- C4 amended: `Next` returns a stanza, exhaustion or an error — it never
panics — for every input whose first non-blank, non-comment line is not a
continuation line; on inputs whose first such line *is* a continuation line
the write to the unallocated map panics (see `next_nil_map_panic`). -/
theorem next_no_panic_without_leading_continuation :
    ∀ input : List Char, deb822.contFirst input = false →
      deb822.Next input ≠ deb822.NextRes.panicked :=
  fun input h => nextF_no_panic _ input deb822.Stanza.empty [] (fun _ => h)

/-- C4 amended, witness at a concrete input. -/
theorem next_no_panic_witness :
    deb822.contFirst "Key: v\n".toList = false ∧
    deb822.Next "Key: v\n".toList ≠ deb822.NextRes.panicked :=
  ⟨rfl, next_no_panic_without_leading_continuation "Key: v\n".toList rfl⟩

/-! ### Claim C3 amended -/

/-- Helper: the character-class stage only accepts an upstream version that
is empty or starts with a digit. -/
theorem parseChecks_ok_aux : ∀ e ver rev v,
    version.parseChecks e ver rev = Except.ok v →
    v.Ver = [] ∨ (v.Ver.headD ' ').isDigit = true := by
  intro e ver rev v h
  unfold version.parseChecks at h
  split at h
  · exact Except.noConfusion h
  split at h
  · exact Except.noConfusion h
  split at h
  · exact Except.noConfusion h
  rename_i hguard _ _
  push_neg at hguard
  cases h
  by_cases hv : ver = []
  · exact Or.inl hv
  · exact Or.inr (hguard hv)

/-- Helper: the same through the revision split. -/
theorem parseTail_ok_aux : ∀ e verAll v,
    version.parseTail e verAll = Except.ok v →
    v.Ver = [] ∨ (v.Ver.headD ' ').isDigit = true := by
  intro e verAll v h
  unfold version.parseTail at h
  split at h
  · exact Except.noConfusion h
  split at h
  · exact parseChecks_ok_aux _ _ _ _ h
  · exact parseChecks_ok_aux _ _ _ _ h

/-- C3 amended: whenever `version.Parse` succeeds, the `Version` field is
either empty or starts with a digit (the leading-digit check only applies
to a non-empty upstream segment; an empty segment, as produced by inputs
like `"-"`, is accepted). -/
theorem parse_ok_version_empty_or_digit : ∀ s v,
    version.Parse s = Except.ok v →
    v.Ver = [] ∨ (v.Ver.headD ' ').isDigit = true := by
  intro s v h
  unfold version.Parse at h
  split at h
  · exact Except.noConfusion h
  split at h
  · exact Except.noConfusion h
  split at h
  · exact parseTail_ok_aux _ _ _ h
  split at h
  · exact Except.noConfusion h
  split at h
  · exact Except.noConfusion h
  · exact parseTail_ok_aux _ _ _ h

/-- C3 amended, witness at a concrete input. -/
theorem parse_ok_version_witness :
    version.Parse "1.0".toList = Except.ok ⟨0, "1.0".toList, []⟩ ∧
    ("1.0".toList = [] ∨ (("1.0".toList).headD ' ').isDigit = true) :=
  ⟨rfl, parse_ok_version_empty_or_digit "1.0".toList ⟨0, "1.0".toList, []⟩ rfl⟩

/-! ### Claim C9: wildcard architectures never match -/

/-- C9: for all architecture tuples that are both wildcards, `Is` returns
false — including a wildcard compared with itself. -/
theorem wildcards_never_match :
    ∀ a b : arch.Arch, arch.IsWildcard a = true → arch.IsWildcard b = true →
      arch.Is a b = false := by
  intro a b h1 h2
  unfold arch.Is
  simp [h1, h2]

/-- C9, witness: the all-`any` wildcard against itself. -/
theorem wildcards_never_match_witness :
    arch.IsWildcard ⟨"any".toList, "any".toList, "any".toList⟩ = true ∧
    arch.Is ⟨"any".toList, "any".toList, "any".toList⟩
        ⟨"any".toList, "any".toList, "any".toList⟩ = false :=
  ⟨rfl, wildcards_never_match _ _ rfl rfl⟩

/-! ### Claim C1: clearsigned input with an empty keyring -/

/-- C1 counterexample: a stream whose first bytes match the clearsign
preamble, read with an empty keyring, makes `NewStanzaReader` fail with the
unknown-issuer verification error instead of succeeding. -/
theorem clearsign_empty_keyring_counterexample :
    deb822.clearsignMagic.isPrefixOf
      (deb822.clearsignMagic ++ Char.ofNat 65 :: "A: b\n".toList) = true ∧
    deb822.NewStanzaReader (deb822.clearsignMagic ++ Char.ofNat 65 :: "A: b\n".toList) [] =
      Except.error "unknown issuer" :=
  ⟨rfl, rfl⟩

/-- C1 amended: for every input stream whose first bytes match the
clearsign preamble, a nil/empty keyring makes `NewStanzaReader` return an
error (verification is attempted against the empty keyring and fails, or
the envelope is rejected as malformed); verification is not skipped. -/
theorem clearsign_empty_keyring_fails :
    ∀ input : List Char, input.take 15 = deb822.clearsignMagic →
      ∃ e, deb822.NewStanzaReader input [] = Except.error e := by
  intro input h
  unfold deb822.NewStanzaReader
  simp only [h]
  rcases hd : deb822.clearsignDecode input with _ | ⟨p, k⟩ <;>
    simp [deb822.decodeClearsig, hd, deb822.checkDetachedSignature]

/-- C1 amended, witness at a concrete clearsigned stream. -/
theorem clearsign_empty_keyring_fails_witness :
    ((deb822.clearsignMagic ++ Char.ofNat 65 :: "A: b\n".toList).take 15 =
      deb822.clearsignMagic) ∧
    ∃ e, deb822.NewStanzaReader
        (deb822.clearsignMagic ++ Char.ofNat 65 :: "A: b\n".toList) [] = Except.error e :=
  ⟨rfl, clearsign_empty_keyring_fails _ rfl⟩

namespace deb822

theorem assocGet_nil (k : List Char) : assocGet [] k = none := rfl

theorem assocGet_cons (p : List Char × List Char) (m : List (List Char × List Char)) (k : List Char) :
    assocGet (p :: m) k = if p.1 = k then some p.2 else assocGet m k := by
  by_cases h : p.1 = k <;> simp [assocGet, List.find?_cons, h]

theorem assocSet_nil (k v : List Char) : assocSet [] k v = [(k, v)] := rfl

theorem assocSet_cons (p : List Char × List Char) (m : List (List Char × List Char)) (k v : List Char) :
    assocSet (p :: m) k v =
      if p.1 = k then (k, v) :: m.map (fun q => if q.1 = k then (k, v) else q)
      else p :: assocSet m k v := by
  by_cases h : p.1 = k <;> by_cases h2 : m.any (fun q => q.1 = k) <;>
    simp [assocSet, h, h2]

theorem assocGet_eq_none_iff (m : List (List Char × List Char)) (k : List Char) :
    assocGet m k = none ↔ m.any (fun q => q.1 = k) = false := by
  induction m with
  | nil => simp [assocGet_nil]
  | cons p m ih =>
    rw [assocGet_cons, List.any_cons]
    by_cases h : p.1 = k <;> simp [h, ih]

theorem assocGet_assocSet_self (m : List (List Char × List Char)) (k v : List Char) :
    assocGet (assocSet m k v) k = some v := by
  induction m with
  | nil => rw [assocSet_nil, assocGet_cons]; simp
  | cons p m ih =>
    rw [assocSet_cons]
    by_cases h : p.1 = k
    · rw [if_pos h, assocGet_cons]; simp
    · rw [if_neg h, assocGet_cons, if_neg h]; exact ih

theorem assocGet_map_replace (m : List (List Char × List Char)) (k v k2 : List Char)
    (hne : k2 ≠ k) :
    assocGet (m.map (fun q => if q.1 = k then (k, v) else q)) k2 = assocGet m k2 := by
  induction m with
  | nil => rfl
  | cons p m ih =>
    rw [List.map_cons, assocGet_cons, assocGet_cons]
    by_cases h : p.1 = k
    · rw [if_pos h]
      simp only []
      rw [if_neg (by simpa using hne.symm), if_neg (by rw [h]; exact fun e => hne e.symm)]
      exact ih
    · rw [if_neg h]
      by_cases h2 : p.1 = k2
      · rw [if_pos h2, if_pos h2]
      · rw [if_neg h2, if_neg h2]; exact ih

theorem assocGet_assocSet_ne (m : List (List Char × List Char)) (k v k2 : List Char)
    (hne : k2 ≠ k) :
    assocGet (assocSet m k v) k2 = assocGet m k2 := by
  induction m with
  | nil =>
    rw [assocSet_nil, assocGet_cons, assocGet_nil]
    exact if_neg (fun e => hne e.symm)
  | cons p m ih =>
    rw [assocSet_cons]
    by_cases h : p.1 = k
    · rw [if_pos h, assocGet_cons, assocGet_cons]
      simp only []
      rw [if_neg (by simpa using fun e => hne e.symm)]
      rw [if_neg (by rw [h]; exact fun e => hne e.symm)]
      exact assocGet_map_replace m k v k2 hne
    · rw [if_neg h, assocGet_cons, assocGet_cons]
      by_cases h2 : p.1 = k2
      · rw [if_pos h2, if_pos h2]
      · rw [if_neg h2, if_neg h2]; exact ih

theorem assocSet_keys (m : List (List Char × List Char)) (k v : List Char) :
    (assocSet m k v).map (fun q => q.1) =
      if m.any (fun q => q.1 = k) then m.map (fun q => q.1)
      else m.map (fun q => q.1) ++ [k] := by
  unfold assocSet
  by_cases h : m.any (fun q => q.1 = k)
  · rw [if_pos h, if_pos h, List.map_map]
    apply List.map_congr_left
    intro q _
    by_cases hq : q.1 = k <;> simp [hq]
  · rw [if_neg h, if_neg h]
    simp

end deb822


namespace deb822

/-- invariant: keys = Order and Order nodup -/
theorem set_preserves_inv (s : Stanza) (k v : List Char)
    (h : Stanza.keys s = s.Order ∧ s.Order.Nodup) :
    Stanza.keys (s.Set k v) = (s.Set k v).Order ∧ (s.Set k v).Order.Nodup := by
  obtain ⟨hkeys, hnd⟩ := h
  unfold Stanza.Set
  rcases hv : s.Values with _ | m
  · dsimp only
    rw [assocGet_nil]
    dsimp only
    constructor
    · rw [Stanza.keys]
      simp only [assocSet_nil]
      have : s.Order = [] := by
        rw [← hkeys, Stanza.keys, hv]
      simp [this]
    · have : s.Order = [] := by rw [← hkeys, Stanza.keys, hv]
      simp [this]
  · dsimp only
    have hkeys' : m.map (fun q => q.1) = s.Order := by
      rw [← hkeys, Stanza.keys, hv]
    rcases hg : assocGet m k with _ | w
    · have hany : m.any (fun q => q.1 = k) = false := (assocGet_eq_none_iff m k).1 hg
      constructor
      · simp only [Stanza.keys]
        rw [assocSet_keys]
        simp [hany, hkeys']
      · simp only [List.nodup_append, hnd]
        have hk : k ∉ s.Order := by
          rw [← hkeys']
          intro hmem
          have : m.any (fun q => q.1 = k) = true := by
            simp only [List.any_eq_true]
            rcases List.mem_map.1 hmem with ⟨q, hq, rfl⟩
            exact ⟨q, hq, by simp⟩
          rw [this] at hany
          exact Bool.noConfusion hany
        simp [hk, hnd]
    · have hany : m.any (fun q => q.1 = k) = true := by
        rcases Bool.eq_false_or_eq_true (m.any (fun q => q.1 = k)) with hf | ht
        · exact hf
        · rw [(assocGet_eq_none_iff m k).2 ht] at hg; exact Option.noConfusion hg
      constructor
      · simp only [Stanza.keys]
        rw [assocSet_keys]
        simp [hany, hkeys']
      · exact hnd

theorem applySets_inv (ops : List (List Char × List Char)) :
    ∀ s : Stanza, Stanza.keys s = s.Order ∧ s.Order.Nodup →
      Stanza.keys (applySets ops s) = (applySets ops s).Order ∧
        (applySets ops s).Order.Nodup := by
  induction ops with
  | nil => intro s h; exact h
  | cons p ops ih =>
    intro s h
    exact ih _ (set_preserves_inv s p.1 p.2 h)

end deb822



/-- C10: on any stanza built by a sequence of `Set` operations from the empty
stanza, `Order` has no duplicate keys, `hasKey` agrees with membership in
`Order`, and `Set` on an existing key keeps `Order` unchanged, updates that
key's value, and leaves every other key's value untouched. -/
theorem stanza_set_invariants : ∀ ops : List (List Char × List Char),
    (deb822.applySets ops deb822.Stanza.empty).Order.Nodup ∧
    (∀ k, (deb822.applySets ops deb822.Stanza.empty).hasKey k = true ↔
      k ∈ (deb822.applySets ops deb822.Stanza.empty).Order) ∧
    (∀ k v, (deb822.applySets ops deb822.Stanza.empty).hasKey k = true →
      ((deb822.applySets ops deb822.Stanza.empty).Set k v).Order =
        (deb822.applySets ops deb822.Stanza.empty).Order ∧
      ((deb822.applySets ops deb822.Stanza.empty).Set k v).get k = v ∧
      ∀ k2, k2 ≠ k →
        ((deb822.applySets ops deb822.Stanza.empty).Set k v).get k2 =
          (deb822.applySets ops deb822.Stanza.empty).get k2) := by
  intro ops
  obtain ⟨hkeys, hnd⟩ := deb822.applySets_inv ops deb822.Stanza.empty ⟨rfl, List.nodup_nil⟩
  set s := deb822.applySets ops deb822.Stanza.empty with hs
  refine ⟨hnd, ?_, ?_⟩
  · intro k
    rw [← hkeys]
    unfold deb822.Stanza.hasKey deb822.Stanza.keys
    rcases s.Values with _ | m <;> simp
  · intro k v hk
    rcases hv : s.Values with _ | m
    · simp only [deb822.Stanza.hasKey, hv] at hk
      exact Bool.noConfusion hk
    · simp only [deb822.Stanza.hasKey, hv] at hk
      have hg : ∃ w, deb822.assocGet m k = some w := by
        rcases ho : deb822.assocGet m k with _ | w
        · rw [(deb822.assocGet_eq_none_iff m k).1 ho] at hk; exact Bool.noConfusion hk
        · exact ⟨w, rfl⟩
      obtain ⟨w, hw⟩ := hg
      have hset : s.Set k v =
          { s with Values := some (deb822.assocSet m k v) } := by
        unfold deb822.Stanza.Set
        rw [hv]
        dsimp only
        rw [hw]
      refine ⟨by rw [hset], ?_, ?_⟩
      · rw [hset, deb822.Stanza.get]
        dsimp only
        rw [deb822.assocGet_assocSet_self]
        rfl
      · intro k2 hne
        rw [hset, deb822.Stanza.get, deb822.Stanza.get, hv]
        dsimp only
        rw [deb822.assocGet_assocSet_ne m k v k2 hne]

/-- C10 witness. -/
theorem stanza_set_invariants_witness :
    ("a".toList ∈ (deb822.applySets [("a".toList, "1".toList), ("b".toList, "2".toList)]
        deb822.Stanza.empty).Order) ∧
    (deb822.applySets [("a".toList, "1".toList), ("b".toList, "2".toList)]
        deb822.Stanza.empty).Order.Nodup := by
  have h := stanza_set_invariants [("a".toList, "1".toList), ("b".toList, "2".toList)]
  exact ⟨(h.2.1 "a".toList).1 rfl, h.1⟩

namespace version

theorem sgn_eq_lt {i : Int} : sgn i = Ordering.lt ↔ i < 0 := by
  unfold sgn; split_ifs <;> simp <;> omega

theorem sgn_eq_gt {i : Int} : sgn i = Ordering.gt ↔ 0 < i := by
  unfold sgn; split_ifs with h1 h2 <;> simp <;> omega

theorem sgn_eq_eq {i : Int} : sgn i = Ordering.eq ↔ i = 0 := by
  unfold sgn; split_ifs with h1 h2 <;> simp <;> omega

theorem pcmp_refl (x : Int × Nat) : pcmp x x = Ordering.eq := by
  unfold pcmp; simp

theorem pcmp_eq_iff {x y : Int × Nat} : pcmp x y = Ordering.eq ↔ x = y := by
  unfold pcmp
  rcases x with ⟨x1, x2⟩; rcases y with ⟨y1, y2⟩
  split_ifs <;> simp <;> omega

theorem pcmp_swap (x y : Int × Nat) : pcmp y x = (pcmp x y).swap := by
  unfold pcmp
  rcases x with ⟨x1, x2⟩; rcases y with ⟨y1, y2⟩
  split_ifs <;> simp [Ordering.swap] <;> omega

theorem pcmp_trans_lt {x y z : Int × Nat} (h1 : pcmp x y = Ordering.lt)
    (h2 : pcmp y z = Ordering.lt) : pcmp x z = Ordering.lt := by
  unfold pcmp at *
  rcases x with ⟨x1, x2⟩; rcases y with ⟨y1, y2⟩; rcases z with ⟨z1, z2⟩
  split_ifs at * <;> simp_all <;> omega

theorem ncmp_refl (n : Nat) : ncmp n n = Ordering.eq := by unfold ncmp; simp

theorem ncmp_eq_iff {n m : Nat} : ncmp n m = Ordering.eq ↔ n = m := by
  unfold ncmp; split_ifs <;> simp <;> omega

theorem ncmp_lt_iff {n m : Nat} : ncmp n m = Ordering.lt ↔ n < m := by
  unfold ncmp; split_ifs <;> simp <;> omega

theorem ncmp_gt_iff {n m : Nat} : ncmp n m = Ordering.gt ↔ m < n := by
  unfold ncmp; split_ifs <;> simp <;> omega

theorem ncmp_swap (n m : Nat) : ncmp m n = (ncmp n m).swap := by
  unfold ncmp; split_ifs <;> simp [Ordering.swap] <;> omega

end version


namespace version

theorem padCmp_nil_left (v : List (Int × Nat)) : padCmp [] v = (padList v).swap := by
  cases v <;> rfl

theorem padCmp_nil_right (u : List (Int × Nat)) : padCmp u [] = padList u := by
  cases u <;> rfl

theorem padCmp_cons_cons (x y : Int × Nat) (xs ys : List (Int × Nat)) :
    padCmp (x :: xs) (y :: ys) =
      match pcmp x y with
      | Ordering.eq => padCmp xs ys
      | o => o := rfl

theorem padCmp_nil_cons (y : Int × Nat) (ys : List (Int × Nat)) :
    padCmp [] (y :: ys) =
      match pcmp (0, 0) y with
      | Ordering.eq => padCmp [] ys
      | o => o := by
  rw [padCmp_nil_left, padList, pcmp_swap (0, 0) y, padCmp_nil_left]
  rcases h : pcmp (0, 0) y <;> simp only [h] <;> rfl

theorem padCmp_cons_nil (x : Int × Nat) (xs : List (Int × Nat)) :
    padCmp (x :: xs) [] =
      match pcmp x (0, 0) with
      | Ordering.eq => padCmp xs []
      | o => o := by
  rw [padCmp_nil_right, padList, padCmp_nil_right]

theorem padList_append_zero (u : List (Int × Nat)) :
    padList (u ++ [(0, 0)]) = padList u := by
  induction u with
  | nil => simp [padList, pcmp_refl]
  | cons x xs ih =>
    rw [List.cons_append, padList, padList, ih]

theorem padCmp_append_zero_right (u v : List (Int × Nat)) :
    padCmp u (v ++ [(0, 0)]) = padCmp u v := by
  induction u generalizing v with
  | nil => rw [padCmp_nil_left, padCmp_nil_left, padList_append_zero]
  | cons x xs ih =>
    cases v with
    | nil =>
      show padCmp (x :: xs) [(0, 0)] = _
      rw [padCmp_cons_cons, padCmp_cons_nil]
    | cons y ys =>
      rw [List.cons_append, padCmp_cons_cons, padCmp_cons_cons, ih]

theorem padCmp_swap (u v : List (Int × Nat)) : padCmp v u = (padCmp u v).swap := by
  induction u generalizing v with
  | nil => rw [padCmp_nil_left, padCmp_nil_right, Ordering.swap_swap]
  | cons x xs ih =>
    cases v with
    | nil => rw [padCmp_nil_left, padCmp_nil_right]
    | cons y ys =>
      rw [padCmp_cons_cons, padCmp_cons_cons, pcmp_swap x y]
      rcases h : pcmp x y <;> simp [Ordering.swap, ih]

theorem padCmp_append_zero_left (u v : List (Int × Nat)) :
    padCmp (u ++ [(0, 0)]) v = padCmp u v := by
  rw [padCmp_swap, padCmp_append_zero_right, ← padCmp_swap]

theorem padCmp_pad_right (u v : List (Int × Nat)) (k : Nat) :
    padCmp u (v ++ List.replicate k (0, 0)) = padCmp u v := by
  induction k generalizing v with
  | zero => simp
  | succ k ih =>
    rw [List.replicate_succ', ← List.append_assoc, padCmp_append_zero_right, ih]

theorem padCmp_pad_left (u v : List (Int × Nat)) (k : Nat) :
    padCmp (u ++ List.replicate k (0, 0)) v = padCmp u v := by
  rw [padCmp_swap, padCmp_pad_right, ← padCmp_swap]

end version


namespace version

theorem padCmp_refl (u : List (Int × Nat)) : padCmp u u = Ordering.eq := by
  induction u with
  | nil => rfl
  | cons x xs ih => rw [padCmp_cons_cons, pcmp_refl]; exact ih

theorem padCmp_cons_cons_then (x y : Int × Nat) (xs ys : List (Int × Nat)) :
    padCmp (x :: xs) (y :: ys) = (pcmp x y).then (padCmp xs ys) := by
  rw [padCmp_cons_cons]
  rcases h : pcmp x y <;> rfl

theorem padCmp_eqlen_trans_lt : ∀ u v w : List (Int × Nat),
    u.length = v.length → v.length = w.length →
    padCmp u v = Ordering.lt → padCmp v w = Ordering.lt → padCmp u w = Ordering.lt := by
  intro u
  induction u with
  | nil =>
    intro v w hl1 hl2 h1 h2
    cases v with
    | nil => cases w <;> simp_all
    | cons y ys => simp at hl1
  | cons x xs ih =>
    intro v w hl1 hl2 h1 h2
    cases v with
    | nil => simp at hl1
    | cons y ys =>
      cases w with
      | nil => simp at hl2
      | cons z zs =>
        rw [padCmp_cons_cons_then] at h1 h2 ⊢
        rw [Ordering.then_eq_lt] at h1 h2 ⊢
        rcases h1 with h1 | ⟨h1e, h1t⟩
        · rcases h2 with h2 | ⟨h2e, h2t⟩
          · exact Or.inl (pcmp_trans_lt h1 h2)
          · exact Or.inl (pcmp_eq_iff.1 h2e ▸ h1)
        · rcases h2 with h2 | ⟨h2e, h2t⟩
          · exact Or.inl (pcmp_eq_iff.1 h1e ▸ h2)
          · refine Or.inr ⟨by rw [pcmp_eq_iff.1 h1e, pcmp_eq_iff.1 h2e, pcmp_refl], ?_⟩
            exact ih ys zs (by simpa using hl1) (by simpa using hl2) h1t h2t

theorem padCmp_eqlen_trans_eq : ∀ u v w : List (Int × Nat),
    u.length = v.length → v.length = w.length →
    padCmp u v = Ordering.eq → padCmp v w = Ordering.eq → padCmp u w = Ordering.eq := by
  intro u
  induction u with
  | nil =>
    intro v w hl1 hl2 h1 h2
    cases v with
    | nil => cases w <;> simp_all
    | cons y ys => simp at hl1
  | cons x xs ih =>
    intro v w hl1 hl2 h1 h2
    cases v with
    | nil => simp at hl1
    | cons y ys =>
      cases w with
      | nil => simp at hl2
      | cons z zs =>
        rw [padCmp_cons_cons_then] at h1 h2 ⊢
        rw [Ordering.then_eq_eq] at h1 h2 ⊢
        refine ⟨by rw [pcmp_eq_iff.1 h1.1, pcmp_eq_iff.1 h2.1, pcmp_refl], ?_⟩
        exact ih ys zs (by simpa using hl1) (by simpa using hl2) h1.2 h2.2

theorem padCmp_eqlen_trans_eq_lt : ∀ u v w : List (Int × Nat),
    u.length = v.length → v.length = w.length →
    padCmp u v = Ordering.eq → padCmp v w = Ordering.lt → padCmp u w = Ordering.lt := by
  intro u
  induction u with
  | nil =>
    intro v w hl1 hl2 h1 h2
    cases v with
    | nil => cases w <;> simp_all
    | cons y ys => simp at hl1
  | cons x xs ih =>
    intro v w hl1 hl2 h1 h2
    cases v with
    | nil => simp at hl1
    | cons y ys =>
      cases w with
      | nil => simp at hl2
      | cons z zs =>
        rw [padCmp_cons_cons_then] at h1 h2 ⊢
        rw [Ordering.then_eq_eq] at h1
        rw [Ordering.then_eq_lt] at h2 ⊢
        rcases h2 with h2 | ⟨h2e, h2t⟩
        · exact Or.inl (pcmp_eq_iff.1 h1.1 ▸ h2)
        · refine Or.inr ⟨by rw [pcmp_eq_iff.1 h1.1, pcmp_eq_iff.1 h2e, pcmp_refl], ?_⟩
          exact ih ys zs (by simpa using hl1) (by simpa using hl2) h1.2 h2t

theorem padCmp_eqlen_trans_lt_eq : ∀ u v w : List (Int × Nat),
    u.length = v.length → v.length = w.length →
    padCmp u v = Ordering.lt → padCmp v w = Ordering.eq → padCmp u w = Ordering.lt := by
  intro u
  induction u with
  | nil =>
    intro v w hl1 hl2 h1 h2
    cases v with
    | nil => cases w <;> simp_all
    | cons y ys => simp at hl1
  | cons x xs ih =>
    intro v w hl1 hl2 h1 h2
    cases v with
    | nil => simp at hl1
    | cons y ys =>
      cases w with
      | nil => simp at hl2
      | cons z zs =>
        rw [padCmp_cons_cons_then] at h1 h2 ⊢
        rw [Ordering.then_eq_eq] at h2
        rw [Ordering.then_eq_lt] at h1 ⊢
        rcases h1 with h1 | ⟨h1e, h1t⟩
        · exact Or.inl (pcmp_eq_iff.1 h2.1 ▸ h1)
        · refine Or.inr ⟨by rw [pcmp_eq_iff.1 h1e, pcmp_eq_iff.1 h2.1, pcmp_refl], ?_⟩
          exact ih ys zs (by simpa using hl1) (by simpa using hl2) h1t h2.2

theorem padCmp_padTo (L : Nat) (u v : List (Int × Nat)) :
    padCmp (u ++ List.replicate (L - u.length) (0, 0))
      (v ++ List.replicate (L - v.length) (0, 0)) = padCmp u v := by
  rw [padCmp_pad_left, padCmp_pad_right]

theorem padTo_length (L : Nat) (u : List (Int × Nat)) (h : u.length ≤ L) :
    (u ++ List.replicate (L - u.length) (0, 0)).length = L := by
  simp; omega

theorem padCmp_trans_lt {u v w : List (Int × Nat)}
    (h1 : padCmp u v = Ordering.lt) (h2 : padCmp v w = Ordering.lt) :
    padCmp u w = Ordering.lt := by
  have hmax : u.length ≤ max (max u.length v.length) w.length ∧
      v.length ≤ max (max u.length v.length) w.length ∧
      w.length ≤ max (max u.length v.length) w.length := by omega
  rw [← padCmp_padTo (max (max u.length v.length) w.length) u w]
  refine padCmp_eqlen_trans_lt _ (v ++ List.replicate (max (max u.length v.length) w.length - v.length) (0, 0)) _ ?_ ?_ ?_ ?_
  · rw [padTo_length _ _ hmax.1, padTo_length _ _ hmax.2.1]
  · rw [padTo_length _ _ hmax.2.1, padTo_length _ _ hmax.2.2]
  · rw [padCmp_padTo]; exact h1
  · rw [padCmp_padTo]; exact h2

theorem padCmp_trans_eq {u v w : List (Int × Nat)}
    (h1 : padCmp u v = Ordering.eq) (h2 : padCmp v w = Ordering.eq) :
    padCmp u w = Ordering.eq := by
  have hmax : u.length ≤ max (max u.length v.length) w.length ∧
      v.length ≤ max (max u.length v.length) w.length ∧
      w.length ≤ max (max u.length v.length) w.length := by omega
  rw [← padCmp_padTo (max (max u.length v.length) w.length) u w]
  refine padCmp_eqlen_trans_eq _ (v ++ List.replicate (max (max u.length v.length) w.length - v.length) (0, 0)) _ ?_ ?_ ?_ ?_
  · rw [padTo_length _ _ hmax.1, padTo_length _ _ hmax.2.1]
  · rw [padTo_length _ _ hmax.2.1, padTo_length _ _ hmax.2.2]
  · rw [padCmp_padTo]; exact h1
  · rw [padCmp_padTo]; exact h2

theorem padCmp_trans_eq_lt {u v w : List (Int × Nat)}
    (h1 : padCmp u v = Ordering.eq) (h2 : padCmp v w = Ordering.lt) :
    padCmp u w = Ordering.lt := by
  have hmax : u.length ≤ max (max u.length v.length) w.length ∧
      v.length ≤ max (max u.length v.length) w.length ∧
      w.length ≤ max (max u.length v.length) w.length := by omega
  rw [← padCmp_padTo (max (max u.length v.length) w.length) u w]
  refine padCmp_eqlen_trans_eq_lt _ (v ++ List.replicate (max (max u.length v.length) w.length - v.length) (0, 0)) _ ?_ ?_ ?_ ?_
  · rw [padTo_length _ _ hmax.1, padTo_length _ _ hmax.2.1]
  · rw [padTo_length _ _ hmax.2.1, padTo_length _ _ hmax.2.2]
  · rw [padCmp_padTo]; exact h1
  · rw [padCmp_padTo]; exact h2

theorem padCmp_trans_lt_eq {u v w : List (Int × Nat)}
    (h1 : padCmp u v = Ordering.lt) (h2 : padCmp v w = Ordering.eq) :
    padCmp u w = Ordering.lt := by
  have hmax : u.length ≤ max (max u.length v.length) w.length ∧
      v.length ≤ max (max u.length v.length) w.length ∧
      w.length ≤ max (max u.length v.length) w.length := by omega
  rw [← padCmp_padTo (max (max u.length v.length) w.length) u w]
  refine padCmp_eqlen_trans_lt_eq _ (v ++ List.replicate (max (max u.length v.length) w.length - v.length) (0, 0)) _ ?_ ?_ ?_ ?_
  · rw [padTo_length _ _ hmax.1, padTo_length _ _ hmax.2.1]
  · rw [padTo_length _ _ hmax.2.1, padTo_length _ _ hmax.2.2]
  · rw [padCmp_padTo]; exact h1
  · rw [padCmp_padTo]; exact h2

end version

namespace version

theorem order_digit {c : Char} (h : cisdigit c = true) : order c = 0 := by
  unfold order; rw [if_pos h]

theorem order_ne_zero {c : Char} (hd : ¬ cisdigit c = true) (hn : c.toNat ≠ 0) :
    order c ≠ 0 := by
  unfold order
  rw [if_neg hd]
  split_ifs with h1 h2 h3
  · unfold cisalpha at h1
    simp only [Bool.or_eq_true, Bool.and_eq_true, decide_eq_true_eq] at h1
    rcases h1 with ⟨ha, hb⟩ | ⟨ha, hb⟩ <;>
      (intro he; rw [Int.natCast_eq_zero] at he; omega)
  · simp
  · intro he; omega
  · omega

theorem noNul_cons {c : Char} {cs : List Char} (h : noNul (c :: cs) = true) :
    c.toNat ≠ 0 ∧ noNul cs = true := by
  unfold noNul at *
  simp only [List.all_cons, Bool.and_eq_true, decide_eq_true_eq] at h
  refine ⟨h.1, ?_⟩
  simpa using h.2

theorem tokens_nil : tokens [] = [] := by rw [tokens]

theorem tokens_cons_nondigit {c : Char} (cs : List Char) (h : ¬ cisdigit c = true) :
    tokens (c :: cs) = (order c, 0) :: tokens cs := by
  rw [tokens, dif_neg h]

theorem tokens_cons_digit {c : Char} (cs : List Char) (h : cisdigit c = true) :
    tokens (c :: cs) =
      (0, digitsVal (List.takeWhile cisdigit (c :: cs))) ::
        tokens (List.dropWhile cisdigit (c :: cs)) := by
  rw [tokens, dif_pos h]

end version


namespace version

theorem pcmp_fst (x y : Int) : pcmp (x, 0) (y, 0) = sgn (x - y) := by
  unfold pcmp sgn; split_ifs <;> first | rfl | omega

theorem pcmp_fst_snd (x : Int) (n : Nat) (hx : x ≠ 0) : pcmp (x, 0) (0, n) = sgn x := by
  unfold pcmp sgn; split_ifs <;> first | rfl | omega

theorem pcmp_snd_fst (y : Int) (n : Nat) (hy : y ≠ 0) : pcmp (0, n) (y, 0) = sgn (0 - y) := by
  unfold pcmp sgn; split_ifs <;> first | rfl | omega

theorem pcmp_snd (n m : Nat) : pcmp (0, n) (0, m) = ncmp n m := by
  unfold pcmp ncmp; split_ifs <;> first | rfl | omega

theorem ndLoopR_nil : ndLoopR [] = Sum.inr ([], []) := rfl

theorem ndLoopR_digit {d : Char} (bs : List Char) (h : cisdigit d = true) :
    ndLoopR (d :: bs) = Sum.inr ([], d :: bs) := by
  rw [ndLoopR, if_neg (by simp [h])]

theorem ndLoopR_nondigit {d : Char} (bs : List Char) (h : ¬ cisdigit d = true)
    (hn : d.toNat ≠ 0) : ndLoopR (d :: bs) = Sum.inl (0 - order d) := by
  rw [ndLoopR, if_pos (by simp [h]), if_neg (fun he => order_ne_zero h hn he.symm)]

theorem ndLoopL_nil : ndLoopL [] = Sum.inr ([], []) := rfl

theorem ndLoopL_digit {c : Char} (cs : List Char) (h : cisdigit c = true) :
    ndLoopL (c :: cs) = Sum.inr (c :: cs, []) := by
  rw [ndLoopL, if_neg (by simp [h])]

theorem ndLoopL_nondigit {c : Char} (cs : List Char) (h : ¬ cisdigit c = true)
    (hn : c.toNat ≠ 0) : ndLoopL (c :: cs) = Sum.inl (order c - 0) := by
  rw [ndLoopL, if_pos (by simp [h]), if_neg (order_ne_zero h hn)]

theorem ndLoop_nil_left (b : List Char) : ndLoop [] b = ndLoopR b := by
  cases b <;> rfl

theorem ndLoop_cons_nil (c : Char) (cs : List Char) :
    ndLoop (c :: cs) [] = ndLoopL (c :: cs) := rfl

theorem ndLoop_cons_cons (c d : Char) (cs ds : List Char) :
    ndLoop (c :: cs) (d :: ds) =
      if ¬ cisdigit c = true ∨ ¬ cisdigit d = true then
        if order c = order d then ndLoop cs ds else Sum.inl (order c - order d)
      else Sum.inr (c :: cs, d :: ds) := rfl

end version


namespace version

/-- When the match on `sgn i` is applied to a nonzero `i`, the `eq` branch
cannot fire. -/
theorem match_sgn_ne_zero (i : Int) (hi : i ≠ 0) (t : Ordering) :
    (match sgn i with
     | Ordering.eq => t
     | o => o) = sgn i := by
  rcases hs : sgn i with _ | _ | _
  · rfl
  · exact absurd (sgn_eq_eq.1 hs) hi
  · rfl

theorem ndLoop_inl_corr : ∀ a b r, noNul a = true → noNul b = true →
    ndLoop a b = Sum.inl r → sgn r = padCmp (tokens a) (tokens b) := by
  intro a
  induction a with
  | nil =>
    intro b r _ hb h
    rw [ndLoop_nil_left] at h
    cases b with
    | nil => rw [ndLoopR_nil] at h; exact Sum.noConfusion h
    | cons d ds =>
      obtain ⟨hd0, _⟩ := noNul_cons hb
      by_cases hdig : cisdigit d = true
      · rw [ndLoopR_digit ds hdig] at h; exact Sum.noConfusion h
      · rw [ndLoopR_nondigit ds hdig hd0] at h
        cases h
        have hod : order d ≠ 0 := order_ne_zero hdig hd0
        rw [tokens_nil, tokens_cons_nondigit ds hdig, padCmp_nil_cons,
          pcmp_fst 0 (order d), match_sgn_ne_zero _ (by omega)]
  | cons c cs ih =>
    intro b r ha hb h
    obtain ⟨hc0, hcs⟩ := noNul_cons ha
    cases b with
    | nil =>
      rw [ndLoop_cons_nil] at h
      by_cases hdig : cisdigit c = true
      · rw [ndLoopL_digit cs hdig] at h; exact Sum.noConfusion h
      · rw [ndLoopL_nondigit cs hdig hc0] at h
        cases h
        have hoc : order c ≠ 0 := order_ne_zero hdig hc0
        rw [tokens_nil, tokens_cons_nondigit cs hdig, padCmp_cons_nil,
          pcmp_fst (order c) 0, match_sgn_ne_zero _ (by omega)]
    | cons d ds =>
      obtain ⟨hd0, hds⟩ := noNul_cons hb
      rw [ndLoop_cons_cons] at h
      by_cases hcd : ¬ cisdigit c = true ∨ ¬ cisdigit d = true
      · rw [if_pos hcd] at h
        by_cases heq : order c = order d
        · rw [if_pos heq] at h
          have hrec := ih ds r hcs hds h
          rcases hcd with hcd | hcd
          · have hoc : order c ≠ 0 := order_ne_zero hcd hc0
            by_cases hdd : cisdigit d = true
            · exact absurd (heq.trans (order_digit hdd)) hoc
            · rw [tokens_cons_nondigit cs hcd, tokens_cons_nondigit ds hdd,
                padCmp_cons_cons, pcmp_fst, heq, sub_self]
              rcases hs : sgn (0 : Int) with _ | _ | _
              · exact absurd (sgn_eq_lt.1 hs) (by omega)
              · exact hrec
              · exact absurd (sgn_eq_gt.1 hs) (by omega)
          · have hod : order d ≠ 0 := order_ne_zero hcd hd0
            by_cases hcc : cisdigit c = true
            · exact absurd ((order_digit hcc).symm.trans heq).symm hod
            · rw [tokens_cons_nondigit cs hcc, tokens_cons_nondigit ds hcd,
                padCmp_cons_cons, pcmp_fst, heq, sub_self]
              rcases hs : sgn (0 : Int) with _ | _ | _
              · exact absurd (sgn_eq_lt.1 hs) (by omega)
              · exact hrec
              · exact absurd (sgn_eq_gt.1 hs) (by omega)
        · rw [if_neg heq] at h
          cases h
          by_cases hcc : cisdigit c = true
          · have hoc : order c = 0 := order_digit hcc
            have hdd : ¬ cisdigit d = true := by
              rcases hcd with hcd | hcd
              · exact absurd hcc hcd
              · exact hcd
            have hod : order d ≠ 0 := order_ne_zero hdd hd0
            rw [tokens_cons_digit cs hcc, tokens_cons_nondigit ds hdd, padCmp_cons_cons,
              pcmp_snd_fst (order d) _ hod]
            rw [order_digit hcc, zero_sub]
            exact (match_sgn_ne_zero _ (by omega) _).symm
          · have hoc : order c ≠ 0 := order_ne_zero hcc hc0
            by_cases hdd : cisdigit d = true
            · have hod : order d = 0 := order_digit hdd
              rw [tokens_cons_nondigit cs hcc, tokens_cons_digit ds hdd, padCmp_cons_cons,
                pcmp_fst_snd (order c) _ hoc]
              rw [order_digit hdd, sub_zero]
              exact (match_sgn_ne_zero _ hoc _).symm
            · rw [tokens_cons_nondigit cs hcc, tokens_cons_nondigit ds hdd,
                padCmp_cons_cons, pcmp_fst]
              exact (match_sgn_ne_zero _ (by omega) _).symm
      · rw [if_neg hcd] at h
        exact Sum.noConfusion h

end version


namespace version

theorem ndLoop_inr_corr : ∀ a b a1 b1, noNul a = true → noNul b = true →
    ndLoop a b = Sum.inr (a1, b1) →
    padCmp (tokens a) (tokens b) = padCmp (tokens a1) (tokens b1) ∧
    (a1 = [] ∨ cisdigit (a1.headD ' ') = true) ∧
    (b1 = [] ∨ cisdigit (b1.headD ' ') = true) ∧
    noNul a1 = true ∧ noNul b1 = true ∧
    ((a1 = a ∧ b1 = b) ∨ a1.length + b1.length < a.length + b.length) := by
  intro a
  induction a with
  | nil =>
    intro b a1 b1 _ hb h
    rw [ndLoop_nil_left] at h
    cases b with
    | nil =>
      rw [ndLoopR_nil] at h
      cases h
      exact ⟨rfl, Or.inl rfl, Or.inl rfl, rfl, rfl, Or.inl ⟨rfl, rfl⟩⟩
    | cons d ds =>
      obtain ⟨hd0, _⟩ := noNul_cons hb
      by_cases hdig : cisdigit d = true
      · rw [ndLoopR_digit ds hdig] at h
        cases h
        exact ⟨rfl, Or.inl rfl, Or.inr (by simpa using hdig), rfl, hb, Or.inl ⟨rfl, rfl⟩⟩
      · rw [ndLoopR_nondigit ds hdig hd0] at h
        exact Sum.noConfusion h
  | cons c cs ih =>
    intro b a1 b1 ha hb h
    obtain ⟨hc0, hcs⟩ := noNul_cons ha
    cases b with
    | nil =>
      rw [ndLoop_cons_nil] at h
      by_cases hdig : cisdigit c = true
      · rw [ndLoopL_digit cs hdig] at h
        cases h
        exact ⟨rfl, Or.inr (by simpa using hdig), Or.inl rfl, ha, rfl, Or.inl ⟨rfl, rfl⟩⟩
      · rw [ndLoopL_nondigit cs hdig hc0] at h
        exact Sum.noConfusion h
    | cons d ds =>
      obtain ⟨hd0, hds⟩ := noNul_cons hb
      rw [ndLoop_cons_cons] at h
      by_cases hcd : ¬ cisdigit c = true ∨ ¬ cisdigit d = true
      · rw [if_pos hcd] at h
        by_cases heq : order c = order d
        · rw [if_pos heq] at h
          obtain ⟨hpad, he1, he2, hn1, hn2, hlen⟩ := ih ds a1 b1 hcs hds h
          have hcc : ¬ cisdigit c = true := by
            rcases hcd with hcd | hcd
            · exact hcd
            · intro hc
              exact order_ne_zero hcd hd0 ((heq ▸ order_digit hc).symm).symm
          have hdd : ¬ cisdigit d = true := by
            intro hdcon
            exact order_ne_zero hcc hc0 (heq.trans (order_digit hdcon))
          refine ⟨?_, he1, he2, hn1, hn2, Or.inr ?_⟩
          · rw [tokens_cons_nondigit cs hcc, tokens_cons_nondigit ds hdd,
              padCmp_cons_cons, pcmp_fst, heq, sub_self]
            rcases hs : sgn (0 : Int) with _ | _ | _
            · exact absurd (sgn_eq_lt.1 hs) (by omega)
            · exact hpad
            · exact absurd (sgn_eq_gt.1 hs) (by omega)
          · rcases hlen with ⟨rfl, rfl⟩ | hlt
            · simp only [List.length_cons]; omega
            · simp only [List.length_cons]; omega
        · rw [if_neg heq] at h
          exact Sum.noConfusion h
      · rw [if_neg hcd] at h
        cases h
        push_neg at hcd
        refine ⟨rfl, Or.inr (by simpa using hcd.1), Or.inr (by simpa using hcd.2),
          ha, hb, Or.inl ⟨rfl, rfl⟩⟩

end version

namespace version

theorem digitsVal_foldl (l : List Char) : ∀ acc : Nat,
    l.foldl (fun n c => 10 * n + (c.toNat - 48)) acc =
      acc * 10 ^ l.length + l.foldl (fun n c => 10 * n + (c.toNat - 48)) 0 := by
  induction l with
  | nil => intro acc; simp
  | cons c cs ih =>
    intro acc
    rw [List.foldl_cons, ih, List.foldl_cons, ih (10 * 0 + (c.toNat - 48))]
    simp only [List.length_cons, Nat.pow_succ]
    ring

theorem digitsVal_cons (c : Char) (cs : List Char) :
    digitsVal (c :: cs) = (c.toNat - 48) * 10 ^ cs.length + digitsVal cs := by
  unfold digitsVal
  rw [List.foldl_cons, digitsVal_foldl]
  simp

theorem digit_toNat_bounds {c : Char} (h : cisdigit c = true) :
    48 ≤ c.toNat ∧ c.toNat ≤ 57 := by
  unfold cisdigit at h
  simp only [Bool.and_eq_true, decide_eq_true_eq] at h
  obtain ⟨h1, h2⟩ := h
  constructor
  · exact h1
  · exact h2

theorem digitsVal_lt (l : List Char) (h : l.all cisdigit = true) :
    digitsVal l < 10 ^ l.length := by
  induction l with
  | nil => simp [digitsVal]
  | cons c cs ih =>
    simp only [List.all_cons, Bool.and_eq_true] at h
    have hc := digit_toNat_bounds h.1
    have := ih h.2
    rw [digitsVal_cons, List.length_cons, Nat.pow_succ]
    have h9 : c.toNat - 48 ≤ 9 := by omega
    calc (c.toNat - 48) * 10 ^ cs.length + digitsVal cs
        ≤ 9 * 10 ^ cs.length + digitsVal cs := by
          have := Nat.mul_le_mul_right (10 ^ cs.length) h9
          omega
      _ < 9 * 10 ^ cs.length + 10 ^ cs.length := by omega
      _ = 10 ^ cs.length * 10 := by ring
      _ ≤ 10 ^ cs.length * 10 := le_refl _

theorem digitsVal_ge (l : List Char) (h : l.all cisdigit = true)
    (hne : l ≠ []) (h0 : l.headD ' ' ≠ '0') :
    10 ^ (l.length - 1) ≤ digitsVal l := by
  cases l with
  | nil => exact absurd rfl hne
  | cons c cs =>
    simp only [List.all_cons, Bool.and_eq_true] at h
    have hc := digit_toNat_bounds h.1
    have hcn : c.toNat ≠ 48 := by
      intro he
      apply h0
      simp only [List.headD_cons]
      refine Char.eq_of_val_eq ?_
      have h3 : c.val.toNat = ('0'.val).toNat := by simpa [Char.toNat] using he
      exact UInt32.ext h3
    rw [digitsVal_cons]
    simp only [List.length_cons, Nat.add_sub_cancel]
    have h1 : 1 ≤ c.toNat - 48 := by omega
    calc 10 ^ cs.length = 1 * 10 ^ cs.length := by ring
      _ ≤ (c.toNat - 48) * 10 ^ cs.length := Nat.mul_le_mul_right _ h1
      _ ≤ (c.toNat - 48) * 10 ^ cs.length + digitsVal cs := Nat.le_add_right _ _

end version


namespace version

theorem digLoop_stop (ra rb : List Char) (fd : Int)
    (ha : ra = [] ∨ ¬ cisdigit (ra.headD ' ') = true)
    (hb : rb = [] ∨ ¬ cisdigit (rb.headD ' ') = true) :
    digLoop ra rb fd = (ra, rb, fd) := by
  cases ra with
  | nil => rfl
  | cons e es =>
    cases rb with
    | nil => rfl
    | cons f fs =>
      rw [digLoop]
      rw [if_neg]
      intro hcon
      rcases ha with ha | ha
      · exact List.noConfusion ha
      · exact ha (by simpa using hcon.1)

theorem fdChain_nil (fd : Int) : fdChain fd [] [] = fd := rfl

theorem fdChain_cons (fd : Int) (c d : Char) (cs ds : List Char) :
    fdChain fd (c :: cs) (d :: ds) =
      fdChain (if fd = 0 then (c.toNat : Int) - (d.toNat : Int) else fd) cs ds := rfl

theorem fdChain_ne_zero : ∀ (u v : List Char) (fd : Int), fd ≠ 0 →
    fdChain fd u v = fd := by
  intro u
  induction u with
  | nil => intro v fd h; cases v <;> rfl
  | cons c cs ih =>
    intro v fd h
    cases v with
    | nil => rfl
    | cons d ds => rw [fdChain_cons, if_neg h]; exact ih ds fd h

theorem digLoop_eqlen : ∀ (u v ra rb : List Char) (fd : Int),
    u.length = v.length → u.all cisdigit = true → v.all cisdigit = true →
    (ra = [] ∨ ¬ cisdigit (ra.headD ' ') = true) →
    (rb = [] ∨ ¬ cisdigit (rb.headD ' ') = true) →
    digLoop (u ++ ra) (v ++ rb) fd = (ra, rb, fdChain fd u v) := by
  intro u
  induction u with
  | nil =>
    intro v ra rb fd hl hu hv hra hrb
    cases v with
    | nil => simpa using digLoop_stop ra rb fd hra hrb
    | cons d ds => simp at hl
  | cons c cs ih =>
    intro v ra rb fd hl hu hv hra hrb
    cases v with
    | nil => simp at hl
    | cons d ds =>
      simp only [List.all_cons, Bool.and_eq_true] at hu hv
      rw [List.cons_append, List.cons_append, digLoop,
        if_pos ⟨hu.1, hv.1⟩, fdChain_cons]
      exact ih ds ra rb _ (by simpa using hl) hu.2 hv.2 hra hrb

theorem digLoop_shorter_left : ∀ (u v ra rb : List Char) (fd : Int),
    u.length < v.length → u.all cisdigit = true → v.all cisdigit = true →
    (ra = [] ∨ ¬ cisdigit (ra.headD ' ') = true) →
    ∃ fd', digLoop (u ++ ra) (v ++ rb) fd = (ra, v.drop u.length ++ rb, fd') ∧
      v.drop u.length ≠ [] ∧ cisdigit ((v.drop u.length).headD ' ') = true := by
  intro u
  induction u with
  | nil =>
    intro v ra rb fd hl hu hv hra
    cases v with
    | nil => simp at hl
    | cons d ds =>
      simp only [List.all_cons, Bool.and_eq_true] at hv
      refine ⟨fd, ?_, by simp, by simpa using hv.1⟩
      simp only [List.nil_append, List.drop_zero]
      cases ra with
      | nil => rfl
      | cons e es =>
        have hng : ¬ (cisdigit e = true ∧ cisdigit d = true) := by
          intro hcon
          rcases hra with hra | hra
          · exact List.noConfusion hra
          · exact hra (by simpa using hcon.1)
        rw [List.cons_append, digLoop, if_neg hng]
        simp
  | cons c cs ih =>
    intro v ra rb fd hl hu hv hra
    cases v with
    | nil => simp at hl
    | cons d ds =>
      simp only [List.all_cons, Bool.and_eq_true] at hu hv
      rw [List.cons_append, List.cons_append, digLoop, if_pos ⟨hu.1, hv.1⟩]
      obtain ⟨fd', heq, hne, hdig⟩ := ih ds ra rb
        (if fd = 0 then (c.toNat : Int) - (d.toNat : Int) else fd)
        (by simpa using hl) hu.2 hv.2 hra
      exact ⟨fd', by simpa using heq, by simpa using hne, by simpa using hdig⟩

theorem digLoop_shorter_right : ∀ (u v ra rb : List Char) (fd : Int),
    v.length < u.length → u.all cisdigit = true → v.all cisdigit = true →
    (rb = [] ∨ ¬ cisdigit (rb.headD ' ') = true) →
    ∃ fd', digLoop (u ++ ra) (v ++ rb) fd = (u.drop v.length ++ ra, rb, fd') ∧
      u.drop v.length ≠ [] ∧ cisdigit ((u.drop v.length).headD ' ') = true := by
  intro u
  induction u with
  | nil => intro v ra rb fd hl _ _ _; simp at hl
  | cons c cs ih =>
    intro v ra rb fd hl hu hv hrb
    cases v with
    | nil =>
      simp only [List.all_cons, Bool.and_eq_true] at hu
      refine ⟨fd, ?_, by simp, by simpa using hu.1⟩
      simp only [List.nil_append, List.drop_zero]
      cases rb with
      | nil => rfl
      | cons e es =>
        have hng : ¬ (cisdigit c = true ∧ cisdigit e = true) := by
          intro hcon
          rcases hrb with hrb | hrb
          · exact List.noConfusion hrb
          · exact hrb (by simpa using hcon.2)
        rw [List.cons_append, digLoop, if_neg hng]
        simp
    | cons d ds =>
      simp only [List.all_cons, Bool.and_eq_true] at hu hv
      rw [List.cons_append, List.cons_append, digLoop, if_pos ⟨hu.1, hv.1⟩]
      obtain ⟨fd', heq, hne, hdig⟩ := ih ds ra rb
        (if fd = 0 then (c.toNat : Int) - (d.toNat : Int) else fd)
        (by simpa using hl) hu.2 hv.2 hrb
      exact ⟨fd', by simpa using heq, by simpa using hne, by simpa using hdig⟩

end version


namespace version

theorem ncmp_add_left (a x y : Nat) : ncmp (a + x) (a + y) = ncmp x y := by
  unfold ncmp; split_ifs <;> first | rfl | omega

theorem fdChain_val : ∀ u v : List Char, u.length = v.length →
    u.all cisdigit = true → v.all cisdigit = true →
    sgn (fdChain 0 u v) = ncmp (digitsVal u) (digitsVal v) := by
  intro u
  induction u with
  | nil =>
    intro v hl _ _
    cases v with
    | nil =>
      rw [fdChain_nil]
      rw [show sgn 0 = Ordering.eq from sgn_eq_eq.2 rfl, ncmp_refl]
    | cons d ds => simp at hl
  | cons c cs ih =>
    intro v hl hu hv
    cases v with
    | nil => simp at hl
    | cons d ds =>
      simp only [List.all_cons, Bool.and_eq_true] at hu hv
      have hlen : cs.length = ds.length := by simpa using hl
      have hcb := digit_toNat_bounds hu.1
      have hdb := digit_toNat_bounds hv.1
      rw [fdChain_cons, if_pos rfl]
      rw [digitsVal_cons, digitsVal_cons, hlen]
      by_cases hcd : (c.toNat : Int) - (d.toNat : Int) = 0
      · have hval : c.toNat = d.toNat := by omega
        rw [hcd]
        rw [ih ds hlen hu.2 hv.2, hval, ncmp_add_left]
      · rw [fdChain_ne_zero cs ds _ hcd]
        have hu' := digitsVal_lt cs hu.2
        have hv' := digitsVal_lt ds hv.2
        rw [hlen] at hu'
        rcases lt_or_gt_of_ne hcd with hlt | hgt
        · rw [sgn_eq_lt.2 hlt]
          have : c.toNat < d.toNat := by omega
          rw [show ncmp ((c.toNat - 48) * 10 ^ ds.length + digitsVal cs)
              ((d.toNat - 48) * 10 ^ ds.length + digitsVal ds) = Ordering.lt from ?_]
          rw [ncmp_lt_iff]
          have h1 : c.toNat - 48 + 1 ≤ d.toNat - 48 := by omega
          calc (c.toNat - 48) * 10 ^ ds.length + digitsVal cs
              < (c.toNat - 48) * 10 ^ ds.length + 10 ^ ds.length := by omega
            _ = (c.toNat - 48 + 1) * 10 ^ ds.length := by ring
            _ ≤ (d.toNat - 48) * 10 ^ ds.length :=
                Nat.mul_le_mul_right _ h1
            _ ≤ (d.toNat - 48) * 10 ^ ds.length + digitsVal ds := Nat.le_add_right _ _
        · rw [sgn_eq_gt.2 hgt]
          have : d.toNat < c.toNat := by omega
          rw [show ncmp ((c.toNat - 48) * 10 ^ ds.length + digitsVal cs)
              ((d.toNat - 48) * 10 ^ ds.length + digitsVal ds) = Ordering.gt from ?_]
          rw [ncmp_gt_iff]
          have h1 : d.toNat - 48 + 1 ≤ c.toNat - 48 := by omega
          calc (d.toNat - 48) * 10 ^ ds.length + digitsVal ds
              < (d.toNat - 48) * 10 ^ ds.length + 10 ^ ds.length := by omega
            _ = (d.toNat - 48 + 1) * 10 ^ ds.length := by ring
            _ ≤ (c.toNat - 48) * 10 ^ ds.length :=
                Nat.mul_le_mul_right _ h1
            _ ≤ (c.toNat - 48) * 10 ^ ds.length + digitsVal cs := Nat.le_add_right _ _

theorem digitsVal_shorter (u v : List Char) (hl : u.length < v.length)
    (hu : u.all cisdigit = true) (hv : v.all cisdigit = true)
    (hv0 : v.headD ' ' ≠ '0') (hvne : v ≠ []) :
    digitsVal u < digitsVal v := by
  have h1 := digitsVal_lt u hu
  have h2 := digitsVal_ge v hv hvne hv0
  have h3 : 10 ^ u.length ≤ 10 ^ (v.length - 1) :=
    Nat.pow_le_pow_right (by omega) (by omega)
  omega

end version


namespace version

theorem all_of_all_dropWhile {p q : Char → Bool} : ∀ l : List Char,
    l.all p = true → (l.dropWhile q).all p = true := by
  intro l h
  induction l with
  | nil => simp
  | cons c cs ih =>
    simp only [List.all_cons, Bool.and_eq_true] at h
    by_cases hq : q c = true
    · rw [List.dropWhile_cons_of_pos hq]; exact ih h.2
    · rw [List.dropWhile_cons_of_neg hq]; simp [h.1, h.2]

theorem dropWhile_head_not (p : Char → Bool) : ∀ l : List Char,
    l.dropWhile p = [] ∨ ¬ p ((l.dropWhile p).headD ' ') = true := by
  intro l
  induction l with
  | nil => exact Or.inl rfl
  | cons c cs ih =>
    by_cases hq : p c = true
    · rw [List.dropWhile_cons_of_pos hq]; exact ih
    · rw [List.dropWhile_cons_of_neg hq]
      exact Or.inr (by simpa using hq)

theorem all_takeWhile (p : Char → Bool) : ∀ l : List Char,
    (l.takeWhile p).all p = true := by
  intro l
  induction l with
  | nil => simp
  | cons c cs ih =>
    by_cases hq : p c = true
    · rw [List.takeWhile_cons_of_pos hq]; simp [hq, ih]
    · rw [List.takeWhile_cons_of_neg hq]; simp

theorem dropZeros_append (R r : List Char) (hR : R.all cisdigit = true)
    (hr : r = [] ∨ ¬ cisdigit (r.headD ' ') = true) :
    List.dropWhile (fun c => c = '0') (R ++ r) =
      List.dropWhile (fun c => c = '0') R ++ r := by
  induction R with
  | nil =>
    simp only [List.nil_append, List.dropWhile_nil]
    cases r with
    | nil => rfl
    | cons e es =>
      rcases hr with hr | hr
      · exact List.noConfusion hr
      · rw [List.dropWhile_cons_of_neg]
        simp only [decide_eq_true_eq]
        intro he
        exact hr (by rw [List.headD_cons, he]; rfl)
  | cons c R' ih =>
    simp only [List.all_cons, Bool.and_eq_true] at hR
    by_cases hc : c = '0'
    · rw [List.cons_append, List.dropWhile_cons_of_pos (by simpa using hc),
        List.dropWhile_cons_of_pos (by simpa using hc)]
      exact ih hR.2
    · rw [List.cons_append, List.dropWhile_cons_of_neg (by simpa using hc),
        List.dropWhile_cons_of_neg (by simpa using hc), List.cons_append]

theorem digitsVal_dropZeros : ∀ R : List Char,
    digitsVal (List.dropWhile (fun c => c = '0') R) = digitsVal R := by
  intro R
  induction R with
  | nil => rfl
  | cons c R' ih =>
    by_cases hc : c = '0'
    · rw [List.dropWhile_cons_of_pos (by simpa using hc), ih, digitsVal_cons]
      rw [hc]
      norm_num
      rfl
    · rw [List.dropWhile_cons_of_neg (by simpa using hc)]

end version


namespace version

theorem padCmp_num_heads (va vb : Nat) (ta tb : List (Int × Nat)) :
    padCmp ((0, va) :: ta) ((0, vb) :: tb) =
      match ncmp va vb with
      | Ordering.eq => padCmp ta tb
      | o => o := by
  rw [padCmp_cons_cons, pcmp_snd]

theorem headD_append_of_ne_nil {x : List Char} (r : List Char) (h : x ≠ []) :
    (x ++ r).headD ' ' = x.headD ' ' := by
  cases x with
  | nil => exact absurd rfl h
  | cons c cs => rfl

/-- Left token-head normalisation: an empty-or-digit-headed string compares
like its leading digit run's value followed by the rest's tokens. -/
theorem padCmp_tokens_left (a1 : List Char) (v : List (Int × Nat))
    (he : a1 = [] ∨ cisdigit (a1.headD ' ') = true) :
    padCmp (tokens a1) v =
      padCmp ((0, digitsVal (List.takeWhile cisdigit a1)) ::
        tokens (List.dropWhile cisdigit a1)) v := by
  rcases he with rfl | hd
  · show padCmp (tokens []) v = _
    rw [tokens_nil]
    show _ = padCmp ((0, digitsVal []) :: tokens []) v
    rw [tokens_nil]
    rw [show digitsVal [] = 0 from rfl]
    rw [show ((0, 0) :: [] : List (Int × Nat)) = [] ++ [(0, 0)] from rfl,
      padCmp_append_zero_left]
  · cases a1 with
    | nil => exact absurd hd (by decide)
    | cons c cs =>
      rw [tokens_cons_digit cs (by simpa using hd)]

theorem padCmp_tokens_right (b1 : List Char) (u : List (Int × Nat))
    (he : b1 = [] ∨ cisdigit (b1.headD ' ') = true) :
    padCmp u (tokens b1) =
      padCmp u ((0, digitsVal (List.takeWhile cisdigit b1)) ::
        tokens (List.dropWhile cisdigit b1)) := by
  rw [padCmp_swap, padCmp_tokens_left b1 u he, ← padCmp_swap]

/-- Uniform decomposition of the zero-stripping step. -/
theorem runDecomp (a1 : List Char)
    (he : a1 = [] ∨ cisdigit (a1.headD ' ') = true) :
    a1.dropWhile (fun c => c = '0') =
      List.dropWhile (fun c => c = '0') (List.takeWhile cisdigit a1) ++
        List.dropWhile cisdigit a1 ∧
    (List.dropWhile (fun c => c = '0') (List.takeWhile cisdigit a1)).all cisdigit = true ∧
    (List.dropWhile cisdigit a1 = [] ∨
      ¬ cisdigit ((List.dropWhile cisdigit a1).headD ' ') = true) ∧
    digitsVal (List.dropWhile (fun c => c = '0') (List.takeWhile cisdigit a1)) =
      digitsVal (List.takeWhile cisdigit a1) := by
  refine ⟨?_, all_of_all_dropWhile _ (all_takeWhile cisdigit a1),
    dropWhile_head_not cisdigit a1, digitsVal_dropZeros _⟩
  conv_lhs => rw [← List.takeWhile_append_dropWhile (p := cisdigit) (l := a1)]
  exact dropZeros_append _ _ (all_takeWhile cisdigit a1) (dropWhile_head_not cisdigit a1)

theorem zeroStripped_head (l : List Char) :
    List.dropWhile (fun c => c = '0') l = [] ∨
      (List.dropWhile (fun c => c = '0') l).headD ' ' ≠ '0' := by
  rcases dropWhile_head_not (fun c => c = '0') l with h | h
  · exact Or.inl h
  · exact Or.inr (by simpa using h)

/-- The digit phase of one outer iteration of `verrevcmp`. -/
theorem numPhase : ∀ a1 b1 a3 b3 fd,
    (a1 = [] ∨ cisdigit (a1.headD ' ') = true) →
    (b1 = [] ∨ cisdigit (b1.headD ' ') = true) →
    digLoop (a1.dropWhile (fun c => c = '0')) (b1.dropWhile (fun c => c = '0')) 0 =
      (a3, b3, fd) →
    ((a3 ≠ [] ∧ cisdigit (a3.headD ' ') = true) →
      padCmp (tokens a1) (tokens b1) = Ordering.gt) ∧
    (¬ (a3 ≠ [] ∧ cisdigit (a3.headD ' ') = true) →
      (b3 ≠ [] ∧ cisdigit (b3.headD ' ') = true) →
      padCmp (tokens a1) (tokens b1) = Ordering.lt) ∧
    (¬ (a3 ≠ [] ∧ cisdigit (a3.headD ' ') = true) →
      ¬ (b3 ≠ [] ∧ cisdigit (b3.headD ' ') = true) → fd ≠ 0 →
      padCmp (tokens a1) (tokens b1) = sgn fd) ∧
    (¬ (a3 ≠ [] ∧ cisdigit (a3.headD ' ') = true) →
      ¬ (b3 ≠ [] ∧ cisdigit (b3.headD ' ') = true) → fd = 0 →
      a3 = a1.dropWhile cisdigit ∧ b3 = b1.dropWhile cisdigit ∧
      padCmp (tokens a1) (tokens b1) = padCmp (tokens a3) (tokens b3)) := by
  intro a1 b1 a3 b3 fd he1 he2 h
  obtain ⟨hz1, hZa, hra, hva⟩ := runDecomp a1 he1
  obtain ⟨hz2, hZb, hrb, hvb⟩ := runDecomp b1 he2
  rw [hz1, hz2] at h
  rw [padCmp_tokens_left a1 _ he1, padCmp_tokens_right b1 _ he2, padCmp_num_heads,
    ← hva, ← hvb]
  rcases lt_trichotomy
      (List.dropWhile (fun c => c = '0') (List.takeWhile cisdigit a1)).length
      (List.dropWhile (fun c => c = '0') (List.takeWhile cisdigit b1)).length
    with hlt | heq | hgt
  · -- left run shorter: the digit loop returns -1 via the b3 check
    obtain ⟨fd', hdl, hne, hdig⟩ := digLoop_shorter_left _ _ _
      (List.dropWhile cisdigit b1) 0 hlt hZa hZb hra
    rw [hdl] at h
    simp only [Prod.mk.injEq] at h
    obtain ⟨h1, h2, h3⟩ := h
    subst h1; subst h2; subst h3
    have hvlt : digitsVal (List.dropWhile (fun c => c = '0') (List.takeWhile cisdigit a1)) <
        digitsVal (List.dropWhile (fun c => c = '0') (List.takeWhile cisdigit b1)) := by
      apply digitsVal_shorter _ _ hlt hZa hZb
      · rcases zeroStripped_head (List.takeWhile cisdigit b1) with hnil | hh
        · rw [hnil] at hlt; simp at hlt
        · exact hh
      · intro hnil
        rw [hnil] at hlt; simp at hlt
    have hb3 : (List.dropWhile (fun c => c = '0') (List.takeWhile cisdigit b1)).drop
          (List.dropWhile (fun c => c = '0') (List.takeWhile cisdigit a1)).length ++
          List.dropWhile cisdigit b1 ≠ [] := by
      intro hn
      rcases List.append_eq_nil.1 hn with ⟨hn1, _⟩
      exact hne hn1
    have hb3d : cisdigit (((List.dropWhile (fun c => c = '0')
        (List.takeWhile cisdigit b1)).drop
          (List.dropWhile (fun c => c = '0') (List.takeWhile cisdigit a1)).length ++
          List.dropWhile cisdigit b1).headD ' ') = true := by
      rw [headD_append_of_ne_nil _ hne]
      exact hdig
    refine ⟨?_, ?_, ?_, ?_⟩
    · intro hc
      exfalso
      rcases hra with hr | hr
      · exact hc.1 hr
      · exact hr hc.2
    · intro _ _
      rw [ncmp_lt_iff.2 hvlt]
    · intro _ hc _
      exact absurd ⟨hb3, hb3d⟩ hc
    · intro _ hc _
      exact absurd ⟨hb3, hb3d⟩ hc
  · -- equal run lengths: the loop consumes both runs
    rw [digLoop_eqlen _ _ _ _ 0 heq hZa hZb hra hrb] at h
    simp only [Prod.mk.injEq] at h
    obtain ⟨h1, h2, h3⟩ := h
    subst h1; subst h2; subst h3
    have hsf : sgn (fdChain 0 (List.dropWhile (fun c => c = '0') (List.takeWhile cisdigit a1))
        (List.dropWhile (fun c => c = '0') (List.takeWhile cisdigit b1))) =
        ncmp (digitsVal (List.dropWhile (fun c => c = '0') (List.takeWhile cisdigit a1)))
          (digitsVal (List.dropWhile (fun c => c = '0') (List.takeWhile cisdigit b1))) :=
      fdChain_val _ _ heq hZa hZb
    refine ⟨?_, ?_, ?_, ?_⟩
    · intro hc
      exfalso
      rcases hra with hr | hr
      · exact hc.1 hr
      · exact hr hc.2
    · intro _ hc
      exfalso
      rcases hrb with hr | hr
      · exact hc.1 hr
      · exact hr hc.2
    · intro _ _ hfd
      rw [← hsf]
      exact match_sgn_ne_zero _ hfd _
    · intro _ _ hfd
      refine ⟨rfl, rfl, ?_⟩
      have : ncmp (digitsVal (List.dropWhile (fun c => c = '0') (List.takeWhile cisdigit a1)))
          (digitsVal (List.dropWhile (fun c => c = '0') (List.takeWhile cisdigit b1))) =
          Ordering.eq := by
        rw [← hsf, hfd]
        exact sgn_eq_eq.2 rfl
      rw [this]
  · -- right run shorter
    obtain ⟨fd', hdl, hne, hdig⟩ := digLoop_shorter_right _ _
      (List.dropWhile cisdigit a1) _ 0 hgt hZa hZb hrb
    rw [hdl] at h
    simp only [Prod.mk.injEq] at h
    obtain ⟨h1, h2, h3⟩ := h
    subst h1; subst h2; subst h3
    have hvgt : digitsVal (List.dropWhile (fun c => c = '0') (List.takeWhile cisdigit b1)) <
        digitsVal (List.dropWhile (fun c => c = '0') (List.takeWhile cisdigit a1)) := by
      apply digitsVal_shorter _ _ hgt hZb hZa
      · rcases zeroStripped_head (List.takeWhile cisdigit a1) with hnil | hh
        · rw [hnil] at hgt; simp at hgt
        · exact hh
      · intro hnil
        rw [hnil] at hgt; simp at hgt
    have ha3 : (List.dropWhile (fun c => c = '0') (List.takeWhile cisdigit a1)).drop
          (List.dropWhile (fun c => c = '0') (List.takeWhile cisdigit b1)).length ++
          List.dropWhile cisdigit a1 ≠ [] := by
      intro hn
      rcases List.append_eq_nil.1 hn with ⟨hn1, _⟩
      exact hne hn1
    have ha3d : cisdigit (((List.dropWhile (fun c => c = '0')
        (List.takeWhile cisdigit a1)).drop
          (List.dropWhile (fun c => c = '0') (List.takeWhile cisdigit b1)).length ++
          List.dropWhile cisdigit a1).headD ' ') = true := by
      rw [headD_append_of_ne_nil _ hne]
      exact hdig
    refine ⟨?_, ?_, ?_, ?_⟩
    · intro _
      rw [ncmp_gt_iff.2 hvgt]
    · intro hc _
      exact absurd ⟨ha3, ha3d⟩ hc
    · intro hc _ _
      exact absurd ⟨ha3, ha3d⟩ hc
    · intro hc _ _
      exact absurd ⟨ha3, ha3d⟩ hc

end version


namespace version

theorem dropWhile_length_le (p : Char → Bool) (l : List Char) :
    (l.dropWhile p).length ≤ l.length :=
  List.Sublist.length_le (List.dropWhile_sublist p)

theorem dropWhile_digit_head_lt (l : List Char) (h : cisdigit (l.headD ' ') = true) :
    (l.dropWhile cisdigit).length < l.length := by
  cases l with
  | nil => exact absurd h (by decide)
  | cons c cs =>
    rw [List.dropWhile_cons_of_pos (by simpa using h)]
    exact Nat.lt_succ_of_le (dropWhile_length_le _ _)

/-- Main correspondence: on NUL-free inputs, the fuelled `verrevcmp` loop
computes exactly the padded lexicographic comparison of token lists. -/
theorem verrevcmpAux_corr : ∀ fuel a b, a.length + b.length < fuel →
    noNul a = true → noNul b = true →
    sgn (verrevcmpAux fuel a b) = padCmp (tokens a) (tokens b) := by
  intro fuel
  induction fuel with
  | zero => intro a b hlt _ _; exact absurd hlt (Nat.not_lt_zero _)
  | succ fuel ih =>
    intro a b hlt ha hb
    rw [verrevcmpAux]
    by_cases hab : a = [] ∧ b = []
    · obtain ⟨rfl, rfl⟩ := hab
      rw [if_pos ⟨rfl, rfl⟩, tokens_nil]
      rfl
    · rw [if_neg hab]
      rcases hnd : ndLoop a b with r | ab1
      · exact ndLoop_inl_corr a b r ha hb hnd
      · obtain ⟨a1, b1⟩ := ab1
        obtain ⟨hpeq, hea, heb, hna1, hnb1, hprog⟩ := ndLoop_inr_corr a b a1 b1 ha hb hnd
        rcases hdig : digLoop (a1.dropWhile (fun c => c = '0'))
            (b1.dropWhile (fun c => c = '0')) 0 with ⟨a3, b3, fd⟩
        obtain ⟨n1, n2, n3, n4⟩ := numPhase a1 b1 a3 b3 fd hea heb hdig
        simp only [hdig]
        by_cases h1 : a3 ≠ [] ∧ cisdigit (a3.headD ' ') = true
        · rw [if_pos h1, hpeq, n1 h1]
          rfl
        · rw [if_neg h1]
          by_cases h2 : b3 ≠ [] ∧ cisdigit (b3.headD ' ') = true
          · rw [if_pos h2, hpeq, n2 h1 h2]
            rfl
          · rw [if_neg h2]
            by_cases h3 : fd ≠ 0
            · rw [if_pos h3, hpeq, n3 h1 h2 h3]
            · rw [if_neg h3]
              have hfd0 : fd = 0 := not_not.1 h3
              obtain ⟨ha3, hb3, hp⟩ := n4 h1 h2 hfd0
              rw [hpeq, hp]
              apply ih
              · -- progress: total length strictly decreases
                have hle3a : a3.length ≤ a1.length := by
                  rw [ha3]; exact dropWhile_length_le _ _
                have hle3b : b3.length ≤ b1.length := by
                  rw [hb3]; exact dropWhile_length_le _ _
                rcases hprog with ⟨heqa, heqb⟩ | hdec
                · subst heqa; subst heqb
                  rcases hea with h | h
                  · subst h
                    have hb1ne : b1 ≠ [] := by
                      intro hn; exact hab ⟨rfl, hn⟩
                    rcases heb with h' | h'
                    · exact absurd h' hb1ne
                    · have := dropWhile_digit_head_lt b1 h'
                      rw [← hb3] at this
                      simp only [List.length_nil] at hle3a ⊢
                      omega
                  · have := dropWhile_digit_head_lt a1 h
                    rw [← ha3] at this
                    omega
                · omega
              · rw [ha3]
                exact all_of_all_dropWhile _ hna1
              · rw [hb3]
                exact all_of_all_dropWhile _ hnb1

end version


namespace version

theorem verrevcmp_corr (a b : List Char) (ha : noNul a = true) (hb : noNul b = true) :
    sgn (verrevcmp a b) = padCmp (tokens a) (tokens b) :=
  verrevcmpAux_corr _ a b (Nat.lt_succ_self _) ha hb

theorem then_of_ne_eq {x : Ordering} (h : x ≠ Ordering.eq) (y : Ordering) :
    x.then y = x := by
  cases x with
  | lt => rfl
  | eq => exact absurd rfl h
  | gt => rfl

theorem then_swap (x y : Ordering) : (x.then y).swap = x.swap.then y.swap := by
  cases x <;> rfl

/-- `Version.Compare` computes `vcmp` on NUL-free versions. -/
theorem Compare_corr (a b : Version)
    (h1 : noNul a.Ver = true) (h2 : noNul a.Revision = true)
    (h3 : noNul b.Ver = true) (h4 : noNul b.Revision = true) :
    sgn (Compare a b) = vcmp a b := by
  rw [Compare, vcmp]
  rcases Nat.lt_trichotomy a.Epoch b.Epoch with he | he | he
  · rw [if_neg (by omega), if_pos he, ncmp_lt_iff.2 he]
    rfl
  · rw [if_neg (by omega), if_neg (by omega), ncmp_eq_iff.2 he]
    show sgn (if verrevcmp a.Ver b.Ver ≠ 0 then verrevcmp a.Ver b.Ver
        else verrevcmp a.Revision b.Revision) =
      Ordering.then (padCmp (tokens a.Ver) (tokens b.Ver))
        (padCmp (tokens a.Revision) (tokens b.Revision))
    by_cases hrc : verrevcmp a.Ver b.Ver = 0
    · rw [if_neg (by omega)]
      have hv : padCmp (tokens a.Ver) (tokens b.Ver) = Ordering.eq := by
        rw [← verrevcmp_corr a.Ver b.Ver h1 h3, hrc]; rfl
      rw [hv]
      exact verrevcmp_corr a.Revision b.Revision h2 h4
    · rw [if_pos hrc, ← verrevcmp_corr a.Ver b.Ver h1 h3,
        then_of_ne_eq (fun hx => hrc (sgn_eq_eq.1 hx))]
  · rw [if_pos he, ncmp_gt_iff.2 he]
    rfl

theorem vcmp_refl (a : Version) : vcmp a a = Ordering.eq := by
  rw [vcmp, ncmp_refl, padCmp_refl, padCmp_refl]
  rfl

theorem vcmp_swap (a b : Version) : vcmp b a = (vcmp a b).swap := by
  rw [vcmp, vcmp, then_swap, then_swap, ncmp_swap, padCmp_swap (tokens a.Ver),
    padCmp_swap (tokens a.Revision)]

theorem ncmp_trans_lt {n m k : Nat} (h1 : ncmp n m = Ordering.lt)
    (h2 : ncmp m k = Ordering.lt) : ncmp n k = Ordering.lt := by
  rw [ncmp_lt_iff] at *
  omega

theorem vcmp_trans_lt {a b c : Version} (h1 : vcmp a b = Ordering.lt)
    (h2 : vcmp b c = Ordering.lt) : vcmp a c = Ordering.lt := by
  rw [vcmp, Ordering.then_eq_lt] at h1 h2 ⊢
  rcases h1 with h1 | ⟨h1e, h1i⟩
  · rcases h2 with h2 | ⟨h2e, h2i⟩
    · exact Or.inl (ncmp_trans_lt h1 h2)
    · rw [ncmp_eq_iff] at h2e
      exact Or.inl (by rw [← h2e]; exact h1)
  · rcases h2 with h2 | ⟨h2e, h2i⟩
    · rw [ncmp_eq_iff] at h1e
      exact Or.inl (by rw [h1e]; exact h2)
    · refine Or.inr ⟨by rw [ncmp_eq_iff] at *; omega, ?_⟩
      rw [Ordering.then_eq_lt] at h1i h2i ⊢
      rcases h1i with h1i | ⟨h1ie, h1ir⟩
      · rcases h2i with h2i | ⟨h2ie, h2ir⟩
        · exact Or.inl (padCmp_trans_lt h1i h2i)
        · exact Or.inl (padCmp_trans_lt_eq h1i h2ie)
      · rcases h2i with h2i | ⟨h2ie, h2ir⟩
        · exact Or.inl (padCmp_trans_eq_lt h1ie h2i)
        · exact Or.inr ⟨padCmp_trans_eq h1ie h2ie, padCmp_trans_lt h1ir h2ir⟩

theorem vcmp_trans_eq {a b c : Version} (h1 : vcmp a b = Ordering.eq)
    (h2 : vcmp b c = Ordering.eq) : vcmp a c = Ordering.eq := by
  rw [vcmp, Ordering.then_eq_eq] at h1 h2 ⊢
  rw [Ordering.then_eq_eq] at h1 h2 ⊢
  refine ⟨by rw [ncmp_eq_iff] at *; omega,
    padCmp_trans_eq h1.2.1 h2.2.1, padCmp_trans_eq h1.2.2 h2.2.2⟩

theorem swap_eq_gt_iff {x : Ordering} : x.swap = Ordering.gt ↔ x = Ordering.lt := by
  cases x <;> simp [Ordering.swap]

theorem swap_eq_eq_iff {x : Ordering} : x.swap = Ordering.eq ↔ x = Ordering.eq := by
  cases x <;> simp [Ordering.swap]

end version


namespace version

theorem swap_eq_lt_iff {x : Ordering} : x.swap = Ordering.lt ↔ x = Ordering.gt := by
  cases x <;> simp [Ordering.swap]

/-- C6: `Version.Compare` restricted to versions whose upstream-version and
revision strings contain no NUL byte is a strict weak order: `Compare v v = 0`;
`Compare a b > 0` iff `Compare b a < 0`; `Compare a b = 0` iff
`Compare b a = 0`; the strict order is transitive; and the incomparability
relation is transitive.  (Unrestricted, the property fails: a NUL byte makes
`order` return 0, and incomparability fails to be transitive.) -/
theorem compare_strict_weak_order (a b c : Version)
    (ha1 : noNul a.Ver = true) (ha2 : noNul a.Revision = true)
    (hb1 : noNul b.Ver = true) (hb2 : noNul b.Revision = true)
    (hc1 : noNul c.Ver = true) (hc2 : noNul c.Revision = true) :
    Compare a a = 0 ∧
    (Compare a b > 0 ↔ Compare b a < 0) ∧
    (Compare a b = 0 ↔ Compare b a = 0) ∧
    (Compare a b < 0 → Compare b c < 0 → Compare a c < 0) ∧
    (Compare a b = 0 → Compare b c = 0 → Compare a c = 0) := by
  have cab := Compare_corr a b ha1 ha2 hb1 hb2
  have cba := Compare_corr b a hb1 hb2 ha1 ha2
  have cbc := Compare_corr b c hb1 hb2 hc1 hc2
  have cac := Compare_corr a c ha1 ha2 hc1 hc2
  have caa := Compare_corr a a ha1 ha2 ha1 ha2
  have hsw : vcmp b a = (vcmp a b).swap := vcmp_swap a b
  refine ⟨?_, ?_, ?_, ?_, ?_⟩
  · exact sgn_eq_eq.1 (caa.trans (vcmp_refl a))
  · constructor
    · intro h
      apply sgn_eq_lt.1
      rw [cba, hsw, cab.symm.trans (sgn_eq_gt.2 h)]
      rfl
    · intro h
      apply sgn_eq_gt.1
      rw [cab]
      apply swap_eq_lt_iff.1
      rw [← hsw, ← cba]
      exact sgn_eq_lt.2 h
  · constructor
    · intro h
      apply sgn_eq_eq.1
      rw [cba, hsw, cab.symm.trans (sgn_eq_eq.2 h)]
      rfl
    · intro h
      apply sgn_eq_eq.1
      rw [cab]
      apply swap_eq_eq_iff.1
      rw [← hsw, ← cba]
      exact sgn_eq_eq.2 h
  · intro h1 h2
    exact sgn_eq_lt.1 (cac.trans (vcmp_trans_lt (cab.symm.trans (sgn_eq_lt.2 h1))
      (cbc.symm.trans (sgn_eq_lt.2 h2))))
  · intro h1 h2
    exact sgn_eq_eq.1 (cac.trans (vcmp_trans_eq (cab.symm.trans (sgn_eq_eq.2 h1))
      (cbc.symm.trans (sgn_eq_eq.2 h2))))

theorem compare_strict_weak_order_witness :
    Compare ⟨0, ['1'], []⟩ ⟨0, ['1'], []⟩ = 0 ∧
    (Compare ⟨0, ['1'], []⟩ ⟨0, ['2'], []⟩ > 0 ↔
      Compare ⟨0, ['2'], []⟩ ⟨0, ['1'], []⟩ < 0) ∧
    (Compare ⟨0, ['1'], []⟩ ⟨0, ['2'], []⟩ = 0 ↔
      Compare ⟨0, ['2'], []⟩ ⟨0, ['1'], []⟩ = 0) ∧
    (Compare ⟨0, ['1'], []⟩ ⟨0, ['2'], []⟩ < 0 →
      Compare ⟨0, ['2'], []⟩ ⟨0, ['3'], []⟩ < 0 →
      Compare ⟨0, ['1'], []⟩ ⟨0, ['3'], []⟩ < 0) ∧
    (Compare ⟨0, ['1'], []⟩ ⟨0, ['2'], []⟩ = 0 →
      Compare ⟨0, ['2'], []⟩ ⟨0, ['3'], []⟩ = 0 →
      Compare ⟨0, ['1'], []⟩ ⟨0, ['3'], []⟩ = 0) :=
  compare_strict_weak_order ⟨0, ['1'], []⟩ ⟨0, ['2'], []⟩ ⟨0, ['3'], []⟩
    (by decide) (by decide) (by decide) (by decide) (by decide) (by decide)

/-- On a version string containing a NUL byte, `order` returns 0 (its
catch-all), so the comparator equates `"1"` with `"\x00"` and `"\x00"` with
`""` while ranking `"1"` strictly above `""`: incomparability is not
transitive, refuting the unrestricted strict-weak-order claim. -/
theorem compare_incomparability_not_transitive :
    Compare ⟨0, ['1'], []⟩ ⟨0, [Char.ofNat 0], []⟩ = 0 ∧
    Compare ⟨0, [Char.ofNat 0], []⟩ ⟨0, [], []⟩ = 0 ∧
    Compare ⟨0, ['1'], []⟩ ⟨0, [], []⟩ = 1 := by
  refine ⟨by decide, by decide, by decide⟩

end version

end Deb822
